import Mathlib

/-!
Verification of the jsoncrack node-edit engine: the JSON patch-with-merge
operation `applyEditToJson`, the path display `jsonPathToString`, the node
content projection `normalizeNodeData` / `getRowText`, and the post-edit
node reselection, shallowly embedded from
`src/features/modals/NodeModal/index.tsx` and
`src/features/editor/views/GraphView/CustomNode/ObjectNode.tsx`.

JSON documents are modelled as trees (`JValue`); JavaScript property access
on parsed JSON is modelled at the JSON data level: own-property lookup on
objects, index lookup on arrays (a string segment that is the canonical
decimal numeral of an index addresses the array element, as in JavaScript),
and reads on scalars yield `undefined` (`none`).  The code runs in strict
mode (an ES module), so assigning a property on `null` or on a primitive
throws `TypeError`; reading a property of `null` also throws.  A thrown
exception is modelled as `Except.error ()`.  Numbers are modelled as
integers (no claim depends on float behaviour).

The own-property model abstracts from JavaScript's prototype chain and the
exotic `length` property of arrays and strings: at a segment such as
`"toString"` or `"length"` the real walk reads an inherited method, a
string character or an array length where the model reads `undefined`.
`plainSeg` carves out the segments free of these effects (not a built-in
name, index below `2^32 - 1`); on descents through existing own properties,
and on paths of plain segments, the model and the program agree, and the
theorems about absent-property synthesis and non-throwing carry those
hypotheses.
-/

namespace JsonCrack

/-- A parsed JSON value, as produced by `JSON.parse`. -/
inductive JValue where
  | null
  | bool (b : Bool)
  | num (n : Int)
  | str (s : String)
  | arr (elems : List JValue)
  | obj (entries : List (String × JValue))
deriving Repr, Inhabited

/-- One segment of a node path (`NodeData["path"]`): an object key (string)
or an array index (number). -/
inductive Seg where
  | key (s : String)
  | idx (n : Nat)
deriving DecidableEq, Repr, Inhabited

/-- Decimal digit character, `n` in `0..9`. -/
def digitChar (n : Nat) : Char :=
  match n with
  | 0 => '0' | 1 => '1' | 2 => '2' | 3 => '3' | 4 => '4'
  | 5 => '5' | 6 => '6' | 7 => '7' | 8 => '8' | _ => '9'

/-- Fuel-driven decimal printer (most significant digit first). -/
def natCharsF : Nat → Nat → List Char
  | 0, _ => []
  | f + 1, n => if n < 10 then [digitChar n] else natCharsF f (n / 10) ++ [digitChar (n % 10)]

/-- The decimal digits of `n`, as JavaScript prints a (whole, in-range)
number. -/
def natChars (n : Nat) : List Char := natCharsF (n + 1) n

/-- JavaScript's string form of a natural number. -/
def natStr (n : Nat) : String := (natChars n).asString

/-- JavaScript's string form of an integer. -/
def intStr : Int → String
  | Int.ofNat m => natStr m
  | Int.negSucc m => "-" ++ natStr (m + 1)

/-- `some n` when `cs` is a non-empty run of decimal digits of value `n`. -/
def parseNatAll (cs : List Char) : Option Nat :=
  if cs ≠ [] ∧ cs.all Char.isDigit then
    some (cs.foldl (fun a c => a * 10 + (c.toNat - 48)) 0)
  else none

/-- The array index addressed by a segment, when any: a numeric segment, or
a string segment that is the canonical decimal numeral of an index (as in
JavaScript, where `arr["2"]` is element 2 but `arr["02"]` is a plain
property). -/
def canonicalIdx : Seg → Option Nat
  | Seg.idx n => some n
  | Seg.key s =>
    match parseNatAll s.data with
    | some n => if natStr n = s then some n else none
    | none => none

/-- The property key a segment denotes on an object (JavaScript coerces a
numeric key to its decimal string). -/
def segKeyStr : Seg → String
  | Seg.key s => s
  | Seg.idx n => natStr n

/-- String keys that exist on the prototype chains (or as non-element own
properties) of the JavaScript values `JSON.parse` can produce — the
properties of `Object.prototype`, `Array.prototype`, `String.prototype`,
`Number.prototype` and `Boolean.prototype`, plus `length` and
function-object names for margin.  At such a key `parent[seg]` can read an
inherited or exotic value where a pure JSON-level model reads `undefined`,
and `parent["length"] = v` on an array resizes it. -/
def jsBuiltinNames : List String :=
  ["constructor", "hasOwnProperty", "isPrototypeOf", "propertyIsEnumerable",
   "toLocaleString", "toString", "valueOf", "__proto__", "__defineGetter__",
   "__defineSetter__", "__lookupGetter__", "__lookupSetter__",
   "length", "at", "concat", "copyWithin", "entries", "every", "fill", "filter",
   "find", "findIndex", "findLast", "findLastIndex", "flat", "flatMap", "forEach",
   "includes", "indexOf", "join", "keys", "lastIndexOf", "map", "pop", "push",
   "reduce", "reduceRight", "reverse", "shift", "slice", "some", "sort", "splice",
   "toReversed", "toSorted", "toSpliced", "unshift", "values", "with",
   "anchor", "big", "blink", "bold", "charAt", "charCodeAt", "codePointAt",
   "endsWith", "fixed", "fontcolor", "fontsize", "isWellFormed", "italics",
   "link", "localeCompare", "match", "matchAll", "normalize", "padEnd",
   "padStart", "repeat", "replace", "replaceAll", "search", "small", "split",
   "startsWith", "strike", "sub", "substr", "substring", "sup",
   "toLocaleLowerCase", "toLocaleUpperCase", "toLowerCase", "toUpperCase",
   "toWellFormed", "trim", "trimEnd", "trimLeft", "trimRight", "trimStart",
   "toExponential", "toFixed", "toPrecision",
   "name", "prototype", "call", "apply", "bind", "arguments", "caller"]

/-- A string key that is the canonical numeral of a number outside the
JavaScript array-index range (a JS array index is a canonical numeral below
`2^32 - 1`; beyond that, `arr[k]` is a plain property invisible to
`JSON.stringify`). -/
def hugeIndexKey (s : String) : Bool :=
  match parseNatAll s.data with
  | some n => natStr n = s && 4294967295 ≤ n
  | none => false

/-- A *plain* segment: one at which JavaScript property access on parsed
JSON coincides with pure own-property access at the JSON data level — a
numeric index inside the array-index range, or a string key that is neither
a built-in prototype/`length` name nor an out-of-range canonical numeral.
At a plain key an object or fresh `{}` has no inherited binding (so the
code's `=== undefined` synthesis check behaves as own-property absence), an
array treats it as an element index or an expando invisible to
serialization, and a scalar yields `undefined` on read and a strict-mode
`TypeError` on write. -/
def plainSeg : Seg → Bool
  | Seg.idx n => n < 4294967295
  | Seg.key s => !(jsBuiltinNames.contains s) && !(hugeIndexKey s)

/-- Every segment of the path is plain: on such paths the walk of
`applyEditToJson` is modelled faithfully by the own-property embedding
below, whatever the document. -/
def plainPath (p : List Seg) : Bool := p.all plainSeg

/-- Own-property lookup in an object's entry list (first match; `JSON.parse`
and the engine keep keys unique). -/
def getOwnEntry (es : List (String × JValue)) (k : String) : Option JValue :=
  (es.find? (fun e => e.1 = k)).map (·.2)

/-- `obj[k] = v`: overwrite the entry for `k` in place, else append (JS
objects keep a key's original insertion position). -/
def setEntry (es : List (String × JValue)) (k : String) (v : JValue) :
    List (String × JValue) :=
  match es with
  | [] => [(k, v)]
  | (k', v') :: rest => if k' = k then (k', v) :: rest else (k', v') :: setEntry rest k v

/-- `arr[n] = v`: overwrite in range, else extend; the holes JavaScript
leaves serialize as `null`, which is how they are observed. -/
def setIdx (xs : List JValue) (n : Nat) (v : JValue) : List JValue :=
  if n < xs.length then xs.set n v
  else xs ++ List.replicate (n - xs.length) JValue.null ++ [v]

/-- `d[seg]` as a JSON-level own-property read: `none` is JavaScript's
`undefined`.  Reads on scalars give `undefined`; a non-index string key on
an array is a plain (absent) property.  Faithful to JavaScript whenever the
property exists (own properties shadow the prototype chain) and, for absent
properties, at every plain segment (`plainSeg`); at a built-in name such as
`"toString"` or an array's `"length"`, JavaScript instead reads an
inherited or exotic value, so the theorems below either restrict to plain
segments or require the descent to follow existing own properties. -/
def getOwn (d : JValue) (sg : Seg) : Option JValue :=
  match d with
  | JValue.obj es => getOwnEntry es (segKeyStr sg)
  | JValue.arr xs =>
    match canonicalIdx sg with
    | some n => xs[n]?
    | none => none
  | _ => none

/-- `d[seg] = v` in strict mode.  On `null` and on primitives the
assignment throws `TypeError` (`Except.error`).  On an array, a non-index
string key creates an expando property that `JSON.stringify` never shows,
so observably the array is unchanged.  Faithful to JavaScript at plain
segments (`plainSeg`); the one non-plain write with a different visible
effect — `arr["length"] = v`, which resizes the array or throws a
`RangeError` — is excluded from the plain domain the theorems below
restrict to. -/
def setOwn (d : JValue) (sg : Seg) (v : JValue) : Except Unit JValue :=
  match d with
  | JValue.obj es => Except.ok (JValue.obj (setEntry es (segKeyStr sg) v))
  | JValue.arr xs =>
    match canonicalIdx sg with
    | some n => Except.ok (JValue.arr (setIdx xs n v))
    | none => Except.ok (JValue.arr xs)
  | _ => Except.error ()

/-- `d[seg]` as the code performs it: reading a property of `null` throws
in JavaScript.  Reads on non-null scalars are modelled as `undefined`,
which matches JavaScript at plain keys; string indices, `"length"` and
prototype-method names — where JavaScript reads a defined character,
number or function — are excluded by `plainSeg`. -/
def getProp (d : JValue) (sg : Seg) : Except Unit (Option JValue) :=
  match d with
  | JValue.null => Except.error ()
  | _ => Except.ok (getOwn d sg)

/-- `newValue !== null && typeof newValue === "object" &&
!Array.isArray(newValue)`: on parsed JSON this is exactly a JSON object. -/
def isMergeSrc : JValue → Bool
  | JValue.obj _ => true
  | _ => false

/-- `target && typeof target === "object" && !Array.isArray(target)`. -/
def isMergeTgt : JValue → Bool
  | JValue.obj _ => true
  | _ => false

/-- `{ ...target, ...newValue }`: target's entries in order with
`newValue`'s value on a colliding key, then `newValue`'s new keys in
order. -/
def mergeEntries (old new' : List (String × JValue)) : List (String × JValue) :=
  old.map (fun e => (e.1, (getOwnEntry new' e.1).getD e.2)) ++
    new'.filter (fun e => (getOwnEntry old e.1).isNone)

/-- The merged value at the terminal segment (only ever applied to two
objects). -/
def mergeVals (t v : JValue) : JValue :=
  match t, v with
  | JValue.obj ts, JValue.obj vs => JValue.obj (mergeEntries ts vs)
  | _, _ => v

/-- The walk of `applyEditToJson` over a non-empty path (lines 69–90 of
`NodeModal/index.tsx`): descend creating `{}` where the next segment is
`undefined`, and at the terminal segment shallow-merge two objects,
otherwise replace.  Mutation is modelled by rebuilding along the walked
spine, which is sound because parsed JSON is a tree (no aliasing); property
access is the own-property model above, which matches JavaScript on
descents through existing own properties and on plain-segment paths
(`plainPath`). -/
def walkApply (parent : JValue) (path : List Seg) (v : JValue) : Except Unit JValue :=
  match path with
  | [] => Except.ok parent
  | [last] =>
    if isMergeSrc v then
      match getProp parent last with
      | Except.error _ => Except.error ()
      | Except.ok targetOpt =>
        match targetOpt with
        | some t =>
          if isMergeTgt t then setOwn parent last (mergeVals t v)
          else setOwn parent last v
        | none => setOwn parent last v
    else setOwn parent last v
  | sg :: rest =>
    match getProp parent sg with
    | Except.error _ => Except.error ()
    | Except.ok (some child) =>
      match walkApply child rest v with
      | Except.error _ => Except.error ()
      | Except.ok r => setOwn parent sg r
    | Except.ok none =>
      match walkApply (JValue.obj []) rest v with
      | Except.error _ => Except.error ()
      | Except.ok r => setOwn parent sg r

/-- `applyEditToJson` as a document transformation: empty (or absent) path
replaces the root with `newValue`; otherwise the walk patches the parsed
current document.  `Except.error ()` models the rethrown exception. -/
def applyEditToJson (parsedCurrent : JValue) (path : List Seg) (newValue : JValue) :
    Except Unit JValue :=
  match path with
  | [] => Except.ok newValue
  | _ => walkApply parsedCurrent path newValue

/-- The value a path addresses in a document (pure own-property chase;
`none` when a step is missing or goes through a scalar). -/
def lookupAt (d : JValue) : List Seg → Option JValue
  | [] => some d
  | sg :: rest =>
    match getOwn d sg with
    | some c => lookupAt c rest
    | none => none

/-- The container the walk descends into at `sg`: the existing child, or
the freshly created `{}` when the segment is absent. -/
def childOrEmpty (d : JValue) (sg : Seg) : JValue :=
  (getOwn d sg).getD (JValue.obj [])

/-- `d` is an object or an array (the shapes on which strict-mode property
assignment does not throw). -/
def isContainer : JValue → Bool
  | JValue.obj _ => true
  | JValue.arr _ => true
  | _ => false

/-- The assignment `d[sg] = v` succeeds and is visible to serialization:
`d` is an object, or an array addressed at an index. -/
def canWriteSeg (d : JValue) (sg : Seg) : Bool :=
  match d with
  | JValue.obj _ => true
  | JValue.arr _ => (canonicalIdx sg).isSome
  | _ => false

/-- Every position the walk writes through is an object or an
index-addressed array, so the walk succeeds and its writes are visible. -/
def Writable : JValue → List Seg → Bool
  | _, [] => true
  | d, sg :: rest => canWriteSeg d sg && Writable (childOrEmpty d sg) rest

/-- Every position the walk traverses (in the own-property model) holds an
object or an array.  For plain-segment paths this is the condition under
which the JavaScript walk completes without throwing (writes may still be
invisible expando properties on arrays). -/
def SafeWalk : JValue → List Seg → Bool
  | _, [] => true
  | d, sg :: rest => isContainer d && SafeWalk (childOrEmpty d sg) rest

/-- The value the terminal rule of the patch puts at the edited position:
the shallow merge when both the new value and the existing value at the
path are objects, the new value verbatim otherwise. -/
def expectedAt (d : JValue) (p : List Seg) (v : JValue) : JValue :=
  if isMergeSrc v then
    match lookupAt d p with
    | some t => if isMergeTgt t then mergeVals t v else v
    | none => v
  else v

/-- A JSON value as `JSON.parse` can produce it: every object has pairwise
distinct keys (a JavaScript object cannot hold a duplicate key). -/
def wf : JValue → Bool
  | JValue.obj [] => true
  | JValue.obj ((k, v) :: rest) =>
    (getOwnEntry rest k).isNone && wf v && wf (JValue.obj rest)
  | JValue.arr [] => true
  | JValue.arr (x :: xs) => wf x && wf (JValue.arr xs)
  | _ => true

/-- The keys of an entry list are pairwise distinct. -/
def nodupKeys : List (String × JValue) → Bool
  | [] => true
  | (k, _) :: rest => (getOwnEntry rest k).isNone && nodupKeys rest

/-- Value of a hexadecimal digit character (lowercase), inverse of
`hexChar` on `0..15`. -/
def hexVal (c : Char) : Nat :=
  if c = '0' then 0 else if c = '1' then 1 else if c = '2' then 2
  else if c = '3' then 3 else if c = '4' then 4 else if c = '5' then 5
  else if c = '6' then 6 else if c = '7' then 7 else if c = '8' then 8
  else if c = '9' then 9 else if c = 'a' then 10 else if c = 'b' then 11
  else if c = 'c' then 12 else if c = 'd' then 13 else if c = 'e' then 14
  else if c = 'f' then 15 else 0

/-- Inverse of the two-character escapes of a JSON string literal. -/
def unescShort (e : Char) : Char :=
  if e = '"' then '"' else if e = '\\' then '\\' else if e = 'b' then '\x08'
  else if e = 'f' then '\x0c' else if e = 'n' then '\n' else if e = 'r' then '\r'
  else if e = 't' then '\t' else e

/-- Decode the leading escaped character of a JSON string-literal body
(used only to prove that the escaping is injective). -/
def decodeEsc : List Char → Option (Char × List Char)
  | [] => none
  | c :: rest =>
    if c = '\\' then
      match rest with
      | [] => none
      | e :: rest₂ =>
        if e = 'u' then
          match rest₂ with
          | d₁ :: d₂ :: d₃ :: d₄ :: rest₃ =>
            some (Char.ofNat (((hexVal d₁ * 16 + hexVal d₂) * 16 + hexVal d₃) * 16 + hexVal d₄),
              rest₃)
          | _ => none
        else some (unescShort e, rest₂)
    else some (c, rest)

/-- JavaScript `array.join(sep)`. -/
def joinSep (sep : String) : List String → String
  | [] => ""
  | [a] => a
  | a :: b :: rest => a ++ sep ++ joinSep sep (b :: rest)

/-- How one path segment is shown by `jsonPathToString`: numbers bare,
strings wrapped in (unescaped) double quotes. -/
def segDisplay : Seg → String
  | Seg.idx n => natStr n
  | Seg.key s => "\"" ++ s ++ "\""

/-- `jsonPathToString` (lines 25–29 of `NodeModal/index.tsx`): the path as
a bracketed accessor rooted at `$`. -/
def jsonPathToString (path : List Seg) : String :=
  if path.isEmpty then "$"
  else "$[" ++ joinSep "][" (path.map segDisplay) ++ "]"

/-- One bracketed segment per element, in order. -/
def pathBrackets : List Seg → String
  | [] => ""
  | sg :: rest => "[" ++ segDisplay sg ++ "]" ++ pathBrackets rest

/-- The spec's description of the display string: `$` followed by one
bracketed segment per element, in order. -/
def specPathDisplay (path : List Seg) : String :=
  "$" ++ pathBrackets path

/-- Row kind tag of a node's child entry. -/
inductive RowType where
  | object
  | array
  | scalar
deriving DecidableEq, Repr, Inhabited

/-- One display row of a node (`NodeData["text"]` element).  The row type
itself lives in `src/types/graph`, which is outside the given sources;
modelled from the spec's data model: a kind tag, an optional key, a value
(the raw scalar, or the child count for containers), and the immediate
child count for containers. -/
structure Row where
  type : RowType
  key : Option String
  value : JValue
  childrenCount : Option Nat
deriving Repr, Inhabited

mutual

/-- JavaScript string coercion (template literal / `String(x)`) of a parsed
JSON value: identity on strings, decimal on numbers, `"null"`,
`"true"`/`"false"`, `[object Object]` for objects, comma-join for arrays
(with `null` elements becoming empty). -/
def jsCoerce : JValue → String
  | JValue.null => "null"
  | JValue.bool b => cond b "true" "false"
  | JValue.num n => intStr n
  | JValue.str s => s
  | JValue.obj _ => "[object Object]"
  | JValue.arr [] => ""
  | JValue.arr [x] => jsCoerceElem x
  | JValue.arr (x :: y :: rest) => jsCoerceElem x ++ "," ++ jsCoerce (JValue.arr (y :: rest))

/-- Array elements coerce like the value, except `null` becomes empty. -/
def jsCoerceElem : JValue → String
  | JValue.null => ""
  | v => jsCoerce v

end

/-- `getRowText` (lines 19–23 of `ObjectNode.tsx`): container rows show a
synthesized count label, scalar rows show the value as text. -/
def getRowText (row : Row) : String :=
  if row.type = RowType.object then
    "\x7b" ++ natStr (row.childrenCount.getD 0) ++ " keys\x7d"
  else if row.type = RowType.array then
    "[" ++ natStr (row.childrenCount.getD 0) ++ " items]"
  else jsCoerce row.value

/-- Modelled from the spec: the document→graph row construction
(RowProjector input) is performed by the external graph builder, absent
from the given sources; per §4.5 a container node projects one row per
immediate child in document order, container children carrying their
immediate child count, scalar children carrying the scalar itself. -/
def rowsOfObject (entries : List (String × JValue)) : List Row :=
  entries.map (fun e =>
    match e.2 with
    | JValue.obj es => ⟨RowType.object, some e.1, JValue.num es.length, some es.length⟩
    | JValue.arr xs => ⟨RowType.array, some e.1, JValue.num xs.length, some xs.length⟩
    | v => ⟨RowType.scalar, some e.1, v, none⟩)

/-- JavaScript truthiness of `row.key`: present and non-empty. -/
def truthyKey : Option String → Bool
  | some s => s ≠ ""
  | none => false

/-- The object `normalizeNodeData` accumulates: each row that is neither of
array nor of object kind and has a truthy key contributes its entry, later
rows overwriting earlier ones in place. -/
def buildEntries (rows : List Row) : List (String × JValue) :=
  rows.foldl
    (fun acc r =>
      if r.type ≠ RowType.array ∧ r.type ≠ RowType.object then
        if truthyKey r.key then setEntry acc (r.key.getD "") r.value else acc
      else acc)
    []

/-- Hexadecimal digit character (lowercase, as `JSON.stringify` emits in
`\u00xx` escapes), `n` in `0..15`. -/
def hexChar (n : Nat) : Char :=
  match n with
  | 0 => '0' | 1 => '1' | 2 => '2' | 3 => '3' | 4 => '4'
  | 5 => '5' | 6 => '6' | 7 => '7' | 8 => '8' | 9 => '9'
  | 10 => 'a' | 11 => 'b' | 12 => 'c' | 13 => 'd' | 14 => 'e' | _ => 'f'

/-- `JSON.stringify`'s escaping of one character inside a string literal:
quote and backslash get a backslash, the five short control escapes, other
control characters a `\u00xx` escape, everything else is itself. -/
def escChar (c : Char) : List Char :=
  if c = '"' then ['\\', '"']
  else if c = '\\' then ['\\', '\\']
  else if c = '\x08' then ['\\', 'b']
  else if c = '\x0c' then ['\\', 'f']
  else if c = '\n' then ['\\', 'n']
  else if c = '\r' then ['\\', 'r']
  else if c = '\t' then ['\\', 't']
  else if c.toNat < 32 then ['\\', 'u', '0', '0', hexChar (c.toNat / 16), hexChar (c.toNat % 16)]
  else [c]

/-- Escape every character of a string body. -/
def escStr : List Char → List Char
  | [] => []
  | c :: cs => escChar c ++ escStr cs

/-- A JSON string literal for `s`. -/
def quoteJson (s : String) : String :=
  "\"" ++ (escStr s.data).asString ++ "\""

/-- The indentation `JSON.stringify(·, null, 2)` puts at nesting depth
`d`. -/
def indentStr (d : Nat) : String :=
  (List.replicate (2 * d) ' ').asString

mutual

/-- `JSON.stringify(v, null, 2)` at nesting depth `d`: canonical two-space
indented JSON text, keys in entry order. -/
def stringifyVal : Nat → JValue → String
  | _, JValue.null => "null"
  | _, JValue.bool b => cond b "true" "false"
  | _, JValue.num n => intStr n
  | _, JValue.str s => quoteJson s
  | _, JValue.arr [] => "[]"
  | d, JValue.arr (x :: xs) =>
    "[\n" ++ indentStr (d + 1) ++ stringifyVal (d + 1) x ++
      stringifyArrRest (d + 1) xs ++ "\n" ++ indentStr d ++ "]"
  | _, JValue.obj [] => "\x7b\x7d"
  | d, JValue.obj ((k, v) :: es) =>
    "\x7b\n" ++ indentStr (d + 1) ++ quoteJson k ++ ": " ++ stringifyVal (d + 1) v ++
      stringifyObjRest (d + 1) es ++ "\n" ++ indentStr d ++ "\x7d"

/-- Remaining array items, each on its own line. -/
def stringifyArrRest : Nat → List JValue → String
  | _, [] => ""
  | d, x :: xs => ",\n" ++ indentStr d ++ stringifyVal d x ++ stringifyArrRest d xs

/-- Remaining object entries, each on its own line. -/
def stringifyObjRest : Nat → List (String × JValue) → String
  | _, [] => ""
  | d, (k, v) :: es =>
    ",\n" ++ indentStr d ++ quoteJson k ++ ": " ++ stringifyVal d v ++ stringifyObjRest d es

end

/-- `normalizeNodeData` (lines 11–22 of `NodeModal/index.tsx`): empty row
list shows `{}`, a single row with a falsy key shows its coerced value, and
otherwise the two-space JSON of the object collecting the truthy-keyed rows
of non-container kind. -/
def normalizeNodeData (nodeRows : List Row) : String :=
  match nodeRows with
  | [] => "\x7b\x7d"
  | r :: rest =>
    if rest.isEmpty && !truthyKey r.key then jsCoerce r.value
    else stringifyVal 0 (JValue.obj (buildEntries (r :: rest)))

/-- The character sequence `JSON.stringify` produces for one path segment
(inside the path array): numbers in decimal, strings as JSON literals. -/
def segChars : Seg → List Char
  | Seg.idx n => natChars n
  | Seg.key s => '"' :: (escStr s.data ++ ['"'])

/-- The comma-separated segment list of a stringified path array. -/
def pathCore : List Seg → List Char
  | [] => []
  | [sg] => segChars sg
  | sg :: sg₂ :: rest => segChars sg ++ ',' :: pathCore (sg₂ :: rest)

/-- `JSON.stringify(path)`, the form the reselection compares paths by. -/
def stringifyPath (p : List Seg) : String :=
  ('[' :: (pathCore p ++ [']'])).asString

/-- A graph node as the reselection step uses it: its path and its rows. -/
structure GNode where
  path : List Seg
  text : List Row
deriving Repr, Inhabited

/-- The store state the save flow touches: the file store's contents and
dirty flag, the json store's text, and the graph store's node set and
selection. -/
structure AppState where
  fileContents : String
  fileHasChanges : Bool
  jsonText : String
  nodes : List GNode
  selectedNode : Option GNode
deriving Repr, Inhabited

/-- The modal's local state: whether the textarea is open, its contents,
and whether an error message is shown. -/
structure ModalState where
  editing : Bool
  editedContent : String
  errorShown : Bool
deriving Repr, Inhabited

/-- The lookup of lines 99–100 of `NodeModal/index.tsx`: the first node
whose stringified path equals the stringified edited path. -/
def findByPath (nodes : List GNode) (path : List Seg) : Option GNode :=
  nodes.find? (fun n => stringifyPath n.path = stringifyPath path)

/-- The reselection step after a successful non-root edit (lines 98–106):
select the matching node of the rebuilt graph and refresh the modal's
edited content from it, or change nothing when no node matches. -/
def reselectNonRoot (nodes : List GNode) (path : List Seg) (st : AppState)
    (ms : ModalState) : AppState × ModalState :=
  match findByPath nodes path with
  | some m =>
    ({ st with selectedNode := some m },
      { ms with editedContent := normalizeNodeData m.text })
  | none => (st, ms)

/-- The Save flow (onClick of lines 152–162 plus `applyEditToJson`): parse
results stand in for `JSON.parse` (`none` = the text is not valid JSON),
and `rebuild` stands in for the external document→graph reconstruction that
`setJson` triggers.  On an edited-text parse failure, or when the patch
throws, only the error flag changes; otherwise both stores receive the
serialized patched document, the graph is rebuilt, and the edited node (or
the root) is reselected. -/
def saveEdit (editedParsed : Option JValue) (currentParsed : Option JValue)
    (rebuild : String → List GNode) (path : List Seg) (st : AppState)
    (ms : ModalState) : AppState × ModalState :=
  match editedParsed with
  | none => (st, { ms with errorShown := true })
  | some v =>
    let parsedCurrent := currentParsed.getD (JValue.obj [])
    match path with
    | [] =>
      let jsonStr := stringifyVal 0 v
      let nodes' := rebuild jsonStr
      let sel :=
        match nodes'.find? (fun n => n.path.isEmpty) with
        | some r => some r
        | none => st.selectedNode
      (⟨jsonStr, true, jsonStr, nodes', sel⟩,
        { ms with errorShown := false, editing := false })
    | _ =>
      match walkApply parsedCurrent path v with
      | Except.error _ => (st, { ms with errorShown := true })
      | Except.ok r =>
        let jsonStr := stringifyVal 0 r
        let nodes' := rebuild jsonStr
        let st₁ := { st with fileContents := jsonStr, fileHasChanges := true,
                             jsonText := jsonStr, nodes := nodes' }
        let p := reselectNonRoot nodes' path st₁ ms
        (p.1, { p.2 with errorShown := false, editing := false })

/-! ### Decimal printer facts -/

theorem digitChar_isDigit (n : Nat) : (digitChar n).isDigit = true := by
  unfold digitChar; split <;> decide

theorem natCharsF_congr : ∀ (n f₁ f₂ : Nat), n < f₁ → n < f₂ →
    natCharsF f₁ n = natCharsF f₂ n := by
  intro n
  induction n using Nat.strong_induction_on with
  | _ n ih =>
    intro f₁ f₂ h₁ h₂
    match f₁, f₂ with
    | g₁ + 1, g₂ + 1 =>
      by_cases h : n < 10
      · simp [natCharsF, h]
      · have hdiv : n / 10 < n := Nat.div_lt_self (by omega) (by omega)
        simp only [natCharsF, h, if_false]
        rw [ih (n / 10) hdiv g₁ g₂ (by omega) (by omega)]

theorem natChars_step (n : Nat) :
    natChars n = if n < 10 then [digitChar n] else natChars (n / 10) ++ [digitChar (n % 10)] := by
  show natCharsF (n + 1) n = _
  by_cases h : n < 10
  · simp [natCharsF, h]
  · have hdiv : n / 10 < n := Nat.div_lt_self (by omega) (by omega)
    simp only [natCharsF, h, if_false]
    show natCharsF n (n / 10) ++ _ = natCharsF (n / 10 + 1) (n / 10) ++ _
    rw [natCharsF_congr (n / 10) n (n / 10 + 1) (by omega) (by omega)]

theorem natChars_ne_nil (n : Nat) : natChars n ≠ [] := by
  rw [natChars_step]
  by_cases h : n < 10 <;> simp [h]

theorem natChars_all_digits : ∀ (n : Nat), ∀ c ∈ natChars n, c.isDigit = true := by
  intro n
  induction n using Nat.strong_induction_on with
  | _ n ih =>
    intro c hc
    rw [natChars_step] at hc
    by_cases h : n < 10
    · simp [h] at hc; subst hc; exact digitChar_isDigit n
    · simp only [h, if_false, List.mem_append, List.mem_singleton] at hc
      rcases hc with hc | hc
      · exact ih (n / 10) (Nat.div_lt_self (by omega) (by omega)) c hc
      · subst hc; exact digitChar_isDigit (n % 10)

theorem digitChar_inj : ∀ a < 10, ∀ b < 10, digitChar a = digitChar b → a = b := by decide

theorem append_singleton_inj {α : Type} {as bs : List α} {x y : α}
    (h : as ++ [x] = bs ++ [y]) : as = bs ∧ x = y := by
  have h' := congrArg List.reverse h
  simp only [List.reverse_append, List.reverse_cons, List.reverse_nil, List.nil_append,
    List.singleton_append, List.cons.injEq] at h'
  exact ⟨by have := h'.2; simpa [List.reverse_inj] using this, h'.1⟩

theorem natChars_inj : ∀ (a b : Nat), natChars a = natChars b → a = b := by
  intro a
  induction a using Nat.strong_induction_on with
  | _ a ih =>
    intro b h
    rw [natChars_step a, natChars_step b] at h
    by_cases ha : a < 10 <;> by_cases hb : b < 10
    · simp only [ha, hb, if_true, List.cons.injEq] at h
      exact digitChar_inj a ha b hb h.1
    · simp only [ha, hb, if_true, if_false] at h
      exfalso
      apply natChars_ne_nil (b / 10)
      have hlen := congrArg List.length h
      simp only [List.length_append, List.length_cons, List.length_nil] at hlen
      exact List.eq_nil_of_length_eq_zero (by omega)
    · simp only [ha, hb, if_true, if_false] at h
      exfalso
      apply natChars_ne_nil (a / 10)
      have hlen := congrArg List.length h
      simp only [List.length_append, List.length_cons, List.length_nil] at hlen
      exact List.eq_nil_of_length_eq_zero (by omega)
    · simp only [ha, hb, if_false] at h
      obtain ⟨h₁, h₂⟩ := append_singleton_inj h
      have hq : a / 10 = b / 10 :=
        ih (a / 10) (Nat.div_lt_self (by omega) (by omega)) (b / 10) h₁
      have hr : a % 10 = b % 10 :=
        digitChar_inj _ (Nat.mod_lt _ (by omega)) _ (Nat.mod_lt _ (by omega)) h₂
      omega

/-! ### Entry list and array slot facts -/

theorem getOwnEntry_setEntry_self (es : List (String × JValue)) (k : String) (v : JValue) :
    getOwnEntry (setEntry es k v) k = some v := by
  induction es with
  | nil => simp [setEntry, getOwnEntry, List.find?]
  | cons e rest ih =>
    obtain ⟨k', v'⟩ := e
    by_cases h : k' = k
    · simp [setEntry, getOwnEntry, List.find?, h]
    · simpa [setEntry, getOwnEntry, List.find?, h] using ih

theorem setEntry_self_of_get {es : List (String × JValue)} {k : String} {v : JValue}
    (h : getOwnEntry es k = some v) : setEntry es k v = es := by
  induction es with
  | nil => simp [getOwnEntry] at h
  | cons e rest ih =>
    obtain ⟨k', v'⟩ := e
    by_cases hk : k' = k
    · simp only [getOwnEntry, List.find?, hk] at h
      simp_all [setEntry]
    · have h' : getOwnEntry rest k = some v := by
        simpa [getOwnEntry, List.find?, hk] using h
      simp [setEntry, hk, ih h']

theorem getIdx_setIdx_self (xs : List JValue) (n : Nat) (v : JValue) :
    (setIdx xs n v)[n]? = some v := by
  unfold setIdx
  by_cases h : n < xs.length
  · simp [h, List.getElem?_set_self', List.getElem?_eq_getElem h]
  · simp only [h, if_false]
    rw [List.append_assoc, List.getElem?_append_right (by omega)]
    rw [List.getElem?_append_right (by simp)]
    simp [List.length_replicate, Nat.sub_self]

theorem setIdx_self_of_get : ∀ (xs : List JValue) (n : Nat) (v : JValue),
    xs[n]? = some v → setIdx xs n v = xs := by
  intro xs
  induction xs with
  | nil => intro n v h; simp at h
  | cons x rest ih =>
    intro n v h
    match n with
    | 0 =>
      simp only [List.getElem?_cons_zero, Option.some.injEq] at h
      simp [setIdx, h]
    | m + 1 =>
      simp only [List.getElem?_cons_succ] at h
      have hm : m < rest.length := by
        by_contra hc
        rw [List.getElem?_eq_none (by omega)] at h
        exact Option.noConfusion h
      have := ih m v h
      unfold setIdx at this ⊢
      simp only [hm, if_true] at this
      simp only [List.length_cons, Nat.succ_lt_succ hm, if_true, List.set_cons_succ]
      rw [this]

/-! ### Property write facts -/

theorem setOwn_err {d : JValue} (h : isContainer d = false) (sg : Seg) (v : JValue) :
    setOwn d sg v = Except.error () := by
  cases d <;> simp_all [isContainer, setOwn]

theorem setOwn_ok_of_container {d : JValue} (h : isContainer d = true) (sg : Seg) (v : JValue) :
    ∃ d', setOwn d sg v = Except.ok d' ∧ isContainer d' = true := by
  cases d with
  | obj es => exact ⟨_, rfl, rfl⟩
  | arr xs =>
    simp only [setOwn]
    cases canonicalIdx sg <;> exact ⟨_, rfl, rfl⟩
  | _ => simp [isContainer] at h

theorem setOwn_visible {d : JValue} {sg : Seg} (h : canWriteSeg d sg = true) (v : JValue) :
    ∃ d', setOwn d sg v = Except.ok d' ∧ getOwn d' sg = some v := by
  cases d with
  | obj es => exact ⟨_, rfl, getOwnEntry_setEntry_self es (segKeyStr sg) v⟩
  | arr xs =>
    simp only [canWriteSeg, Option.isSome_iff_exists] at h
    obtain ⟨n, hn⟩ := h
    refine ⟨JValue.arr (setIdx xs n v), ?_, ?_⟩
    · simp [setOwn, hn]
    · simp [getOwn, hn, getIdx_setIdx_self]
  | _ => simp [canWriteSeg] at h

theorem setOwn_invisible {xs : List JValue} {sg : Seg} (h : canonicalIdx sg = none)
    (v : JValue) : setOwn (JValue.arr xs) sg v = Except.ok (JValue.arr xs) := by
  simp [setOwn, h]

theorem setOwn_same {d : JValue} {sg : Seg} {v : JValue} (h : getOwn d sg = some v) :
    setOwn d sg v = Except.ok d := by
  cases d with
  | obj es =>
    simp only [getOwn] at h
    simp [setOwn, setEntry_self_of_get h]
  | arr xs =>
    simp only [getOwn] at h
    cases hc : canonicalIdx sg with
    | none => simp [hc] at h
    | some n =>
      simp only [hc] at h
      simp [setOwn, hc, setIdx_self_of_get xs n v h]
  | _ => simp [getOwn] at h

theorem canWrite_of_getOwn_some {d : JValue} {sg : Seg} {x : JValue}
    (h : getOwn d sg = some x) : canWriteSeg d sg = true := by
  cases d with
  | obj es => rfl
  | arr xs =>
    simp only [getOwn] at h
    cases hc : canonicalIdx sg with
    | none => simp [hc] at h
    | some n => simp [canWriteSeg, hc]
  | _ => simp [getOwn] at h

theorem container_of_canWrite {d : JValue} {sg : Seg} (h : canWriteSeg d sg = true) :
    isContainer d = true := by
  cases d <;> simp_all [canWriteSeg, isContainer]

theorem getProp_ok {d : JValue} (h : isContainer d = true) (sg : Seg) :
    getProp d sg = Except.ok (getOwn d sg) := by
  cases d <;> simp_all [isContainer, getProp]

/-! ### Walk facts -/

theorem setOwn_container {d d' : JValue} {sg : Seg} {v : JValue}
    (hd : isContainer d = true) (h : setOwn d sg v = Except.ok d') :
    isContainer d' = true := by
  obtain ⟨d'', h'', hc⟩ := setOwn_ok_of_container hd sg v
  rw [h''] at h
  cases h
  exact hc

theorem getOwn_fresh (sg : Seg) : getOwn (JValue.obj []) sg = none := by
  simp [getOwn, getOwnEntry, List.find?]

theorem childOrEmpty_fresh (sg : Seg) : childOrEmpty (JValue.obj []) sg = JValue.obj [] := by
  simp [childOrEmpty, getOwn_fresh]

theorem safeWalk_fresh : ∀ p : List Seg, SafeWalk (JValue.obj []) p = true := by
  intro p
  induction p with
  | nil => rfl
  | cons sg rest ih => simp [SafeWalk, childOrEmpty_fresh, isContainer, ih]

theorem writable_fresh : ∀ p : List Seg, Writable (JValue.obj []) p = true := by
  intro p
  induction p with
  | nil => rfl
  | cons sg rest ih => simp [Writable, childOrEmpty_fresh, canWriteSeg, ih]

theorem lookupAt_fresh : ∀ p : List Seg, p ≠ [] → lookupAt (JValue.obj []) p = none := by
  intro p hp
  match p with
  | sg :: rest => simp [lookupAt, getOwn_fresh]

theorem walk_error_nc : ∀ (p : List Seg) (d v : JValue), p ≠ [] → isContainer d = false →
    walkApply d p v = Except.error () := by
  intro p d v hp hd
  match p with
  | [sg] =>
    cases d with
    | null => cases hb : isMergeSrc v <;> simp [walkApply, hb, getProp, setOwn]
    | obj es => simp [isContainer] at hd
    | arr xs => simp [isContainer] at hd
    | bool b =>
      cases hb : isMergeSrc v <;>
        simp [walkApply, hb, getProp, getOwn, setOwn]
    | num n =>
      cases hb : isMergeSrc v <;>
        simp [walkApply, hb, getProp, getOwn, setOwn]
    | str s =>
      cases hb : isMergeSrc v <;>
        simp [walkApply, hb, getProp, getOwn, setOwn]
  | sg :: sg₂ :: rest =>
    cases d with
    | null => simp [walkApply, getProp]
    | obj es => simp [isContainer] at hd
    | arr xs => simp [isContainer] at hd
    | bool b =>
      simp only [walkApply, getProp, getOwn]
      cases hw : walkApply (JValue.obj []) (sg₂ :: rest) v <;> simp [setOwn]
    | num n =>
      simp only [walkApply, getProp, getOwn]
      cases hw : walkApply (JValue.obj []) (sg₂ :: rest) v <;> simp [setOwn]
    | str s =>
      simp only [walkApply, getProp, getOwn]
      cases hw : walkApply (JValue.obj []) (sg₂ :: rest) v <;> simp [setOwn]

theorem walkApply_one (d : JValue) (sg : Seg) (v : JValue) (hd : isContainer d = true) :
    walkApply d [sg] v =
      if isMergeSrc v then
        match getOwn d sg with
        | some t => if isMergeTgt t then setOwn d sg (mergeVals t v) else setOwn d sg v
        | none => setOwn d sg v
      else setOwn d sg v := by
  cases d with
  | obj es => rfl
  | arr xs => rfl
  | null => simp [isContainer] at hd
  | bool b => simp [isContainer] at hd
  | num n => simp [isContainer] at hd
  | str s => simp [isContainer] at hd

theorem walkApply_cons₂ (d : JValue) (sg sg₂ : Seg) (rest : List Seg) (v : JValue)
    (hd : isContainer d = true) :
    walkApply d (sg :: sg₂ :: rest) v =
      match getOwn d sg with
      | some child =>
        match walkApply child (sg₂ :: rest) v with
        | Except.error _ => Except.error ()
        | Except.ok r => setOwn d sg r
      | none =>
        match walkApply (JValue.obj []) (sg₂ :: rest) v with
        | Except.error _ => Except.error ()
        | Except.ok r => setOwn d sg r := by
  have h1 : getProp d sg = Except.ok (getOwn d sg) := getProp_ok hd sg
  simp only [walkApply, h1]
  cases getOwn d sg with
  | some child => rfl
  | none => rfl

theorem walkApply_one_replace {d v : JValue} {sg : Seg} (hd : isContainer d = true)
    (hb : isMergeSrc v = false) : walkApply d [sg] v = setOwn d sg v := by
  rw [walkApply_one d sg v hd, hb]
  simp

theorem walkApply_one_merge_none {d v : JValue} {sg : Seg} (hd : isContainer d = true)
    (hb : isMergeSrc v = true) (hg : getOwn d sg = none) :
    walkApply d [sg] v = setOwn d sg v := by
  rw [walkApply_one d sg v hd, hb, hg]
  simp

theorem walkApply_one_merge_some {d v t : JValue} {sg : Seg} (hd : isContainer d = true)
    (hb : isMergeSrc v = true) (hg : getOwn d sg = some t) (ht : isMergeTgt t = true) :
    walkApply d [sg] v = setOwn d sg (mergeVals t v) := by
  rw [walkApply_one d sg v hd, hb, hg]
  simp [ht]

theorem walkApply_one_merge_repl {d v t : JValue} {sg : Seg} (hd : isContainer d = true)
    (hb : isMergeSrc v = true) (hg : getOwn d sg = some t) (ht : isMergeTgt t = false) :
    walkApply d [sg] v = setOwn d sg v := by
  rw [walkApply_one d sg v hd, hb, hg]
  simp [ht]

theorem walkApply_cons₂_some_ok {d v child rc : JValue} {sg sg₂ : Seg} {rest : List Seg}
    (hd : isContainer d = true) (hg : getOwn d sg = some child)
    (hw : walkApply child (sg₂ :: rest) v = Except.ok rc) :
    walkApply d (sg :: sg₂ :: rest) v = setOwn d sg rc := by
  rw [walkApply_cons₂ d sg sg₂ rest v hd, hg]
  show (match walkApply child (sg₂ :: rest) v with
    | Except.error _ => Except.error ()
    | Except.ok r => setOwn d sg r) = setOwn d sg rc
  rw [hw]

theorem walkApply_cons₂_some_err {d v child : JValue} {sg sg₂ : Seg} {rest : List Seg}
    (hd : isContainer d = true) (hg : getOwn d sg = some child)
    (hw : walkApply child (sg₂ :: rest) v = Except.error ()) :
    walkApply d (sg :: sg₂ :: rest) v = Except.error () := by
  rw [walkApply_cons₂ d sg sg₂ rest v hd, hg]
  show (match walkApply child (sg₂ :: rest) v with
    | Except.error _ => Except.error ()
    | Except.ok r => setOwn d sg r) = Except.error ()
  rw [hw]

theorem walkApply_cons₂_none_ok {d v rf : JValue} {sg sg₂ : Seg} {rest : List Seg}
    (hd : isContainer d = true) (hg : getOwn d sg = none)
    (hw : walkApply (JValue.obj []) (sg₂ :: rest) v = Except.ok rf) :
    walkApply d (sg :: sg₂ :: rest) v = setOwn d sg rf := by
  rw [walkApply_cons₂ d sg sg₂ rest v hd, hg]
  show (match walkApply (JValue.obj []) (sg₂ :: rest) v with
    | Except.error _ => Except.error ()
    | Except.ok r => setOwn d sg r) = setOwn d sg rf
  rw [hw]

theorem walk_ok_iff_safe : ∀ (p : List Seg) (d v : JValue),
    (∃ r, walkApply d p v = Except.ok r) ↔ SafeWalk d p = true := by
  intro p
  induction p with
  | nil => intro d v; simp [walkApply, SafeWalk]
  | cons sg rest ih =>
    intro d v
    cases hd : isContainer d with
    | false =>
      rw [walk_error_nc (sg :: rest) d v (by simp) hd]
      simp [SafeWalk, hd]
    | true =>
      have hfold : SafeWalk d (sg :: rest) =
          (isContainer d && SafeWalk (childOrEmpty d sg) rest) := rfl
      rw [hfold, hd, Bool.true_and]
      cases rest with
      | nil =>
        have hsw : SafeWalk (childOrEmpty d sg) [] = true := rfl
        rw [hsw]
        simp only [iff_true]
        cases hb : isMergeSrc v
        · rw [walkApply_one_replace hd hb]
          exact (setOwn_ok_of_container hd sg v).imp fun _ h => h.1
        · cases hg : getOwn d sg with
          | none =>
            rw [walkApply_one_merge_none hd hb hg]
            exact (setOwn_ok_of_container hd sg v).imp fun _ h => h.1
          | some t =>
            cases ht : isMergeTgt t
            · rw [walkApply_one_merge_repl hd hb hg ht]
              exact (setOwn_ok_of_container hd sg v).imp fun _ h => h.1
            · rw [walkApply_one_merge_some hd hb hg ht]
              exact (setOwn_ok_of_container hd sg (mergeVals t v)).imp fun _ h => h.1
      | cons sg₂ rest₂ =>
        cases hg : getOwn d sg with
        | some child =>
          have hch : childOrEmpty d sg = child := by simp [childOrEmpty, hg]
          rw [hch, ← ih child v]
          constructor
          · rintro ⟨r, hr⟩
            cases hw : walkApply child (sg₂ :: rest₂) v with
            | error e =>
              rw [walkApply_cons₂_some_err hd hg (by cases e; exact hw)] at hr
              exact absurd hr (by simp)
            | ok rc => exact ⟨rc, rfl⟩
          · rintro ⟨rc, hrc⟩
            rw [walkApply_cons₂_some_ok hd hg hrc]
            exact (setOwn_ok_of_container hd sg rc).imp fun _ h => h.1
        | none =>
          have hch : childOrEmpty d sg = JValue.obj [] := by simp [childOrEmpty, hg]
          rw [hch, safeWalk_fresh]
          simp only [iff_true]
          obtain ⟨rf, hrf⟩ := (ih (JValue.obj []) v).mpr (safeWalk_fresh _)
          rw [walkApply_cons₂_none_ok hd hg hrf]
          exact (setOwn_ok_of_container hd sg rf).imp fun _ h => h.1

theorem lookupAt_cons_some {d c : JValue} {sg : Seg} {rest : List Seg}
    (hg : getOwn d sg = some c) : lookupAt d (sg :: rest) = lookupAt c rest := by
  simp [lookupAt, hg]

theorem lookupAt_cons_none {d : JValue} {sg : Seg} {rest : List Seg}
    (hg : getOwn d sg = none) : lookupAt d (sg :: rest) = none := by
  simp [lookupAt, hg]

theorem expectedAt_cons_some {d c v : JValue} {sg : Seg} {rest : List Seg}
    (hg : getOwn d sg = some c) : expectedAt d (sg :: rest) v = expectedAt c rest v := by
  unfold expectedAt
  rw [lookupAt_cons_some hg]

theorem expectedAt_none {d v : JValue} {p : List Seg} (h : lookupAt d p = none) :
    expectedAt d p v = v := by
  unfold expectedAt
  rw [h]
  cases isMergeSrc v <;> simp

theorem walk_writable_lookup : ∀ (p : List Seg) (d v : JValue), p ≠ [] → Writable d p = true →
    ∃ r, walkApply d p v = Except.ok r ∧ lookupAt r p = some (expectedAt d p v) := by
  intro p
  induction p with
  | nil => intro d v hp _; exact absurd rfl hp
  | cons sg rest ih =>
    intro d v _ hw
    have hw' : canWriteSeg d sg = true ∧ Writable (childOrEmpty d sg) rest = true := by
      simpa [Writable, Bool.and_eq_true] using hw
    obtain ⟨hcw, hwr⟩ := hw'
    have hd : isContainer d = true := container_of_canWrite hcw
    cases rest with
    | nil =>
      cases hb : isMergeSrc v with
      | false =>
        obtain ⟨d', hset, hget⟩ := setOwn_visible hcw v
        refine ⟨d', ?_, ?_⟩
        · rw [walkApply_one_replace hd hb]; exact hset
        · simp [lookupAt, hget, expectedAt, hb]
      | true =>
        cases hg : getOwn d sg with
        | none =>
          obtain ⟨d', hset, hget⟩ := setOwn_visible hcw v
          refine ⟨d', ?_, ?_⟩
          · rw [walkApply_one_merge_none hd hb hg]; exact hset
          · have he : expectedAt d [sg] v = v := by
              simp [expectedAt, hb, lookupAt, hg]
            rw [he]; simp [lookupAt, hget]
        | some t =>
          cases ht : isMergeTgt t with
          | true =>
            obtain ⟨d', hset, hget⟩ := setOwn_visible hcw (mergeVals t v)
            refine ⟨d', ?_, ?_⟩
            · rw [walkApply_one_merge_some hd hb hg ht]; exact hset
            · have he : expectedAt d [sg] v = mergeVals t v := by
                simp [expectedAt, hb, lookupAt, hg, ht]
              rw [he]; simp [lookupAt, hget]
          | false =>
            obtain ⟨d', hset, hget⟩ := setOwn_visible hcw v
            refine ⟨d', ?_, ?_⟩
            · rw [walkApply_one_merge_repl hd hb hg ht]; exact hset
            · have he : expectedAt d [sg] v = v := by
                simp [expectedAt, hb, lookupAt, hg, ht]
              rw [he]; simp [lookupAt, hget]
    | cons sg₂ rest₂ =>
      cases hg : getOwn d sg with
      | some child =>
        have hch : childOrEmpty d sg = child := by simp [childOrEmpty, hg]
        rw [hch] at hwr
        obtain ⟨rc, hwc, hlc⟩ := ih child v (by simp) hwr
        obtain ⟨d', hset, hget⟩ := setOwn_visible hcw rc
        refine ⟨d', ?_, ?_⟩
        · rw [walkApply_cons₂_some_ok hd hg hwc]; exact hset
        · rw [lookupAt_cons_some hget, hlc, expectedAt_cons_some hg]
      | none =>
        obtain ⟨rf, hwf, hlf⟩ := ih (JValue.obj []) v (by simp) (writable_fresh _)
        obtain ⟨d', hset, hget⟩ := setOwn_visible hcw rf
        refine ⟨d', ?_, ?_⟩
        · rw [walkApply_cons₂_none_ok hd hg hwf]; exact hset
        · rw [lookupAt_cons_some hget, hlf]
          have h1 : expectedAt (JValue.obj []) (sg₂ :: rest₂) v = v :=
            expectedAt_none (lookupAt_fresh _ (by simp))
          have h2 : expectedAt d (sg :: sg₂ :: rest₂) v = v :=
            expectedAt_none (lookupAt_cons_none hg)
          rw [h1, h2]

/-! ### Entry lookup and shallow-merge facts -/

theorem getOwnEntry_nil (k : String) : getOwnEntry [] k = none := rfl

theorem getOwnEntry_cons (k' : String) (v' : JValue) (rest : List (String × JValue))
    (k : String) :
    getOwnEntry ((k', v') :: rest) k = if k' = k then some v' else getOwnEntry rest k := by
  by_cases h : k' = k <;> simp [getOwnEntry, List.find?, h]

theorem getOwnEntry_append (A B : List (String × JValue)) (k : String) :
    getOwnEntry (A ++ B) k =
      match getOwnEntry A k with
      | some v => some v
      | none => getOwnEntry B k := by
  induction A with
  | nil => simp [getOwnEntry_nil]
  | cons e A ih =>
    obtain ⟨k', v'⟩ := e
    by_cases h : k' = k <;> simp [getOwnEntry_cons, h, ih]

theorem mem_getOwnEntry_isSome {es : List (String × JValue)} {k : String} {v : JValue}
    (h : (k, v) ∈ es) : (getOwnEntry es k).isSome = true := by
  induction es with
  | nil => simp at h
  | cons e rest ih =>
    obtain ⟨k', v'⟩ := e
    rcases List.mem_cons.mp h with h' | h'
    · obtain ⟨hk, _⟩ := Prod.mk.injEq .. ▸ h'
      cases h'
      simp [getOwnEntry_cons]
    · by_cases hk : k' = k <;> simp [getOwnEntry_cons, hk, ih h']

theorem self_lookup {es : List (String × JValue)} (hn : nodupKeys es = true)
    {k : String} {v : JValue} (h : (k, v) ∈ es) : getOwnEntry es k = some v := by
  induction es with
  | nil => simp at h
  | cons e rest ih =>
    obtain ⟨k', v'⟩ := e
    have hn' : (getOwnEntry rest k').isNone = true ∧ nodupKeys rest = true := by
      simpa [nodupKeys, Bool.and_eq_true] using hn
    rcases List.mem_cons.mp h with h' | h'
    · cases h'
      simp [getOwnEntry_cons]
    · by_cases hk : k' = k
      · exfalso
        subst hk
        have := mem_getOwnEntry_isSome h'
        rw [Option.isNone_iff_eq_none.mp hn'.1] at this
        simp at this
      · simp [getOwnEntry_cons, hk, ih hn'.2 h']

theorem mergeEntries_nil (nw : List (String × JValue)) : mergeEntries [] nw = nw := by
  simp [mergeEntries, getOwnEntry_nil]

theorem getOwnEntry_mergeMap (old nw : List (String × JValue)) (k : String) :
    getOwnEntry (old.map (fun e => (e.1, (getOwnEntry nw e.1).getD e.2))) k =
      (getOwnEntry old k).map (fun v => (getOwnEntry nw k).getD v) := by
  induction old with
  | nil => simp [getOwnEntry_nil]
  | cons e old ih =>
    obtain ⟨k', v'⟩ := e
    by_cases h : k' = k
    · subst h; simp [getOwnEntry_cons]
    · simp [getOwnEntry_cons, h, ih]

theorem getOwnEntry_filter_of_none {old : List (String × JValue)} {k : String}
    (nw : List (String × JValue)) (h : getOwnEntry old k = none) :
    getOwnEntry (nw.filter (fun e => (getOwnEntry old e.1).isNone)) k = getOwnEntry nw k := by
  induction nw with
  | nil => rfl
  | cons e nw ih =>
    obtain ⟨k', v'⟩ := e
    by_cases hk : k' = k
    · subst hk
      simp [List.filter_cons, h, getOwnEntry_cons]
    · cases hp : (getOwnEntry old k').isNone <;>
        simp [List.filter_cons, hp, getOwnEntry_cons, hk, ih]

theorem getOwnEntry_merge (old nw : List (String × JValue)) (k : String) :
    getOwnEntry (mergeEntries old nw) k =
      match getOwnEntry old k with
      | some v => some ((getOwnEntry nw k).getD v)
      | none => getOwnEntry nw k := by
  unfold mergeEntries
  rw [getOwnEntry_append, getOwnEntry_mergeMap]
  cases hok : getOwnEntry old k with
  | some v => simp
  | none => simp [getOwnEntry_filter_of_none nw hok]

theorem filter_absent_nil {W : List (String × JValue)} {nw : List (String × JValue)}
    (h : ∀ e ∈ nw, (getOwnEntry W e.1).isSome = true) :
    nw.filter (fun e => (getOwnEntry W e.1).isNone) = [] := by
  induction nw with
  | nil => rfl
  | cons e nw ih =>
    have he := h e (List.mem_cons_self e nw)
    cases hW : getOwnEntry W e.1 with
    | none => rw [hW] at he; simp at he
    | some w =>
      simp only [List.filter_cons, hW, Option.isNone_some, Bool.false_eq_true, if_false]
      exact ih fun e' he' => h e' (List.mem_cons_of_mem e he')

theorem mergeMap_self {vs : List (String × JValue)} (hv : nodupKeys vs = true)
    {B : List (String × JValue)} (hB : ∀ e ∈ B, e ∈ vs) :
    B.map (fun e => (e.1, (getOwnEntry vs e.1).getD e.2)) = B := by
  have : ∀ e ∈ B, (fun e => (e.1, (getOwnEntry vs e.1).getD e.2)) e = id e := by
    intro e he
    have : getOwnEntry vs e.1 = some e.2 := self_lookup hv (by simpa using hB e he)
    simp [this]
  rw [List.map_congr_left this, List.map_id]

theorem merge_absorb {ts vs : List (String × JValue)} (hv : nodupKeys vs = true) :
    mergeEntries (mergeEntries ts vs) vs = mergeEntries ts vs := by
  have hmap : (mergeEntries ts vs).map (fun e => (e.1, (getOwnEntry vs e.1).getD e.2)) =
      mergeEntries ts vs := by
    unfold mergeEntries
    rw [List.map_append]
    congr 1
    · rw [List.map_map]
      apply List.map_congr_left
      intro e _
      simp only [Function.comp_apply]
      cases hge : getOwnEntry vs e.1 <;> simp [hge]
    · exact mergeMap_self hv fun e he => List.mem_of_mem_filter he
  have hfil : vs.filter (fun e => (getOwnEntry (mergeEntries ts vs) e.1).isNone) = [] := by
    apply filter_absent_nil
    intro e he
    rw [getOwnEntry_merge]
    cases hts : getOwnEntry ts e.1 with
    | some v => simp
    | none =>
      have := @mem_getOwnEntry_isSome vs e.1 e.2 (by simpa using he)
      simpa using this
  calc mergeEntries (mergeEntries ts vs) vs
      = (mergeEntries ts vs).map (fun e => (e.1, (getOwnEntry vs e.1).getD e.2)) ++
        vs.filter (fun e => (getOwnEntry (mergeEntries ts vs) e.1).isNone) := rfl
    _ = mergeEntries ts vs ++ [] := by rw [hmap, hfil]
    _ = mergeEntries ts vs := by simp

theorem merge_self {vs : List (String × JValue)} (hv : nodupKeys vs = true) :
    mergeEntries vs vs = vs := by
  have hmap := @mergeMap_self vs hv vs (fun e he => he)
  have hfil : vs.filter (fun e => (getOwnEntry vs e.1).isNone) = [] := by
    apply filter_absent_nil
    intro e he
    exact mem_getOwnEntry_isSome (by simpa using he)
  calc mergeEntries vs vs
      = vs.map (fun e => (e.1, (getOwnEntry vs e.1).getD e.2)) ++
        vs.filter (fun e => (getOwnEntry vs e.1).isNone) := rfl
    _ = vs ++ [] := by rw [hmap, hfil]
    _ = vs := by simp

theorem wf_obj_nodup : ∀ {es : List (String × JValue)}, wf (JValue.obj es) = true →
    nodupKeys es = true := by
  intro es
  induction es with
  | nil => intro _; rfl
  | cons e rest ih =>
    obtain ⟨k, v⟩ := e
    intro h
    have h' : (getOwnEntry rest k).isNone = true ∧ wf v = true ∧ wf (JValue.obj rest) = true := by
      simpa [wf, Bool.and_eq_true, and_assoc] using h
    simp [nodupKeys, h'.1, ih h'.2.2]

theorem isMergeSrc_obj {v : JValue} (h : isMergeSrc v = true) :
    ∃ vs, v = JValue.obj vs := by
  cases v <;> simp_all [isMergeSrc]

theorem isMergeTgt_obj {t : JValue} (h : isMergeTgt t = true) :
    ∃ ts, t = JValue.obj ts := by
  cases t <;> simp_all [isMergeTgt]

theorem setOwn_dichotomy {d : JValue} {sg : Seg} (hd : isContainer d = true) (v : JValue) :
    ∃ d', setOwn d sg v = Except.ok d' ∧
      (getOwn d' sg = some v ∨ (d' = d ∧ getOwn d sg = none)) := by
  cases d with
  | obj es =>
    exact ⟨_, rfl, Or.inl (getOwnEntry_setEntry_self es (segKeyStr sg) v)⟩
  | arr xs =>
    cases hc : canonicalIdx sg with
    | some n =>
      exact ⟨JValue.arr (setIdx xs n v), by simp [setOwn, hc],
        Or.inl (by simp [getOwn, hc, getIdx_setIdx_self])⟩
    | none =>
      exact ⟨JValue.arr xs, by simp [setOwn, hc], Or.inr ⟨rfl, by simp [getOwn, hc]⟩⟩
  | null => simp [isContainer] at hd
  | bool b => simp [isContainer] at hd
  | num n => simp [isContainer] at hd
  | str s => simp [isContainer] at hd

theorem walk_idem : ∀ (p : List Seg) (v : JValue), wf v = true → ∀ (d r : JValue),
    walkApply d p v = Except.ok r → walkApply r p v = Except.ok r := by
  intro p
  induction p with
  | nil =>
    intro v _ d r h
    have : d = r := by
      simpa [walkApply] using h
    subst this
    rfl
  | cons sg rest ih =>
    intro v hv d r hwalk
    have hd : isContainer d = true := by
      cases hq : isContainer d
      · rw [walk_error_nc (sg :: rest) d v (by simp) hq] at hwalk
        exact absurd hwalk (by simp)
      · rfl
    cases rest with
    | nil =>
      cases hb : isMergeSrc v with
      | false =>
        rw [walkApply_one_replace hd hb] at hwalk
        obtain ⟨d', hset, hdis⟩ := setOwn_dichotomy hd v
        rw [hset] at hwalk
        have heq : r = d' := (Except.ok.inj hwalk).symm
        subst heq
        have hr : isContainer r = true := setOwn_container hd hset
        rcases hdis with hvis | ⟨rfl, hnone⟩
        · rw [walkApply_one_replace hr hb]
          exact setOwn_same hvis
        · rw [walkApply_one_replace hr hb]
          exact hset
      | true =>
        obtain ⟨vs, rfl⟩ := isMergeSrc_obj hb
        have hnv : nodupKeys vs = true := wf_obj_nodup hv
        cases hg : getOwn d sg with
        | some t =>
          cases ht : isMergeTgt t with
          | true =>
            obtain ⟨ts, rfl⟩ := isMergeTgt_obj ht
            rw [walkApply_one_merge_some hd hb hg ht] at hwalk
            have hcw := canWrite_of_getOwn_some hg
            obtain ⟨d', hset, hget⟩ :=
              setOwn_visible hcw (mergeVals (JValue.obj ts) (JValue.obj vs))
            rw [hset] at hwalk
            have heq : r = d' := (Except.ok.inj hwalk).symm
            subst heq
            have hr : isContainer r = true := setOwn_container hd hset
            have hW : mergeVals (JValue.obj ts) (JValue.obj vs) =
                JValue.obj (mergeEntries ts vs) := rfl
            rw [hW] at hget
            rw [walkApply_one_merge_some hr hb hget
              (rfl : isMergeTgt (JValue.obj (mergeEntries ts vs)) = true)]
            have habs : mergeVals (JValue.obj (mergeEntries ts vs)) (JValue.obj vs) =
                JValue.obj (mergeEntries ts vs) := by
              show JValue.obj (mergeEntries (mergeEntries ts vs) vs) = _
              rw [merge_absorb hnv]
            rw [habs]
            exact setOwn_same hget
          | false =>
            rw [walkApply_one_merge_repl hd hb hg ht] at hwalk
            have hcw := canWrite_of_getOwn_some hg
            obtain ⟨d', hset, hget⟩ := setOwn_visible hcw (JValue.obj vs)
            rw [hset] at hwalk
            have heq : r = d' := (Except.ok.inj hwalk).symm
            subst heq
            have hr : isContainer r = true := setOwn_container hd hset
            rw [walkApply_one_merge_some hr hb hget
              (rfl : isMergeTgt (JValue.obj vs) = true)]
            have hms : mergeVals (JValue.obj vs) (JValue.obj vs) = JValue.obj vs := by
              show JValue.obj (mergeEntries vs vs) = _
              rw [merge_self hnv]
            rw [hms]
            exact setOwn_same hget
        | none =>
          rw [walkApply_one_merge_none hd hb hg] at hwalk
          obtain ⟨d', hset, hdis⟩ := setOwn_dichotomy hd (JValue.obj vs)
          rw [hset] at hwalk
          have heq : r = d' := (Except.ok.inj hwalk).symm
          subst heq
          have hr : isContainer r = true := setOwn_container hd hset
          rcases hdis with hvis | ⟨rfl, hnone⟩
          · rw [walkApply_one_merge_some hr hb hvis
              (rfl : isMergeTgt (JValue.obj vs) = true)]
            have hms : mergeVals (JValue.obj vs) (JValue.obj vs) = JValue.obj vs := by
              show JValue.obj (mergeEntries vs vs) = _
              rw [merge_self hnv]
            rw [hms]
            exact setOwn_same hvis
          · rw [walkApply_one_merge_none hr hb hg]
            exact hset
    | cons sg₂ rest₂ =>
      cases hg : getOwn d sg with
      | some child =>
        cases hw : walkApply child (sg₂ :: rest₂) v with
        | error e =>
          cases e
          rw [walkApply_cons₂_some_err hd hg hw] at hwalk
          exact absurd hwalk (by simp)
        | ok rc =>
          rw [walkApply_cons₂_some_ok hd hg hw] at hwalk
          have hcw := canWrite_of_getOwn_some hg
          obtain ⟨d', hset, hget⟩ := setOwn_visible hcw rc
          rw [hset] at hwalk
          have heq : r = d' := (Except.ok.inj hwalk).symm
          subst heq
          have hr : isContainer r = true := setOwn_container hd hset
          have hidem := ih v hv child rc hw
          rw [walkApply_cons₂_some_ok hr hget hidem]
          exact setOwn_same hget
      | none =>
        cases hw : walkApply (JValue.obj []) (sg₂ :: rest₂) v with
        | error e =>
          cases e
          exfalso
          have hsafe := (walk_ok_iff_safe (sg :: sg₂ :: rest₂) d v).mp ⟨r, hwalk⟩
          have hsafe' : SafeWalk (childOrEmpty d sg) (sg₂ :: rest₂) = true := by
            have : SafeWalk d (sg :: sg₂ :: rest₂) =
                (isContainer d && SafeWalk (childOrEmpty d sg) (sg₂ :: rest₂)) := rfl
            rw [this, hd, Bool.true_and] at hsafe
            exact hsafe
          rw [show childOrEmpty d sg = JValue.obj [] from by simp [childOrEmpty, hg]] at hsafe'
          obtain ⟨rf, hrf⟩ := (walk_ok_iff_safe (sg₂ :: rest₂) (JValue.obj []) v).mpr hsafe'
          rw [hrf] at hw
          exact absurd hw (by simp)
        | ok rf =>
          rw [walkApply_cons₂_none_ok hd hg hw] at hwalk
          obtain ⟨d', hset, hdis⟩ := setOwn_dichotomy hd rf
          rw [hset] at hwalk
          have heq : r = d' := (Except.ok.inj hwalk).symm
          subst heq
          have hr : isContainer r = true := setOwn_container hd hset
          have hidem := ih v hv (JValue.obj []) rf hw
          rcases hdis with hvis | ⟨rfl, hnone⟩
          · rw [walkApply_cons₂_some_ok hr hvis hidem]
            exact setOwn_same hvis
          · rw [walkApply_cons₂_none_ok hr hg hw]
            exact hset

/-! ### Injectivity of the stringified-path comparison -/

theorem hexVal_hexChar : ∀ m, m < 16 → hexVal (hexChar m) = m := by decide

theorem escChar_head_not_quote (c : Char) :
    ∃ hd tl, escChar c = hd :: tl ∧ hd ≠ '"' := by
  unfold escChar
  split_ifs with h1 h2 h3 h4 h5 h6 h7 h8
  · exact ⟨'\\', _, rfl, by decide⟩
  · exact ⟨'\\', _, rfl, by decide⟩
  · exact ⟨'\\', _, rfl, by decide⟩
  · exact ⟨'\\', _, rfl, by decide⟩
  · exact ⟨'\\', _, rfl, by decide⟩
  · exact ⟨'\\', _, rfl, by decide⟩
  · exact ⟨'\\', _, rfl, by decide⟩
  · exact ⟨'\\', _, rfl, by decide⟩
  · exact ⟨c, [], rfl, h1⟩

theorem decode_escChar (c : Char) (x : List Char) :
    decodeEsc (escChar c ++ x) = some (c, x) := by
  unfold escChar
  split_ifs with h1 h2 h3 h4 h5 h6 h7 h8
  · subst h1; rfl
  · subst h2; rfl
  · subst h3; rfl
  · subst h4; rfl
  · subst h5; rfl
  · subst h6; rfl
  · subst h7; rfl
  · have h16a : c.toNat / 16 < 16 := by omega
    have h16b : c.toNat % 16 < 16 := by omega
    show decodeEsc ('\\' :: 'u' :: '0' :: '0' :: hexChar (c.toNat / 16) ::
      hexChar (c.toNat % 16) :: x) = some (c, x)
    simp only [decodeEsc, if_pos rfl, reduceIte]
    rw [hexVal_hexChar _ h16a, hexVal_hexChar _ h16b]
    have harith : ((hexVal '0' * 16 + hexVal '0') * 16 + c.toNat / 16) * 16 + c.toNat % 16 =
        c.toNat := by
      norm_num [hexVal]
      omega
    rw [harith, Char.ofNat_toNat]
  · simp [decodeEsc, h2]

theorem escChar_append_inj {c₁ c₂ : Char} {x y : List Char}
    (h : escChar c₁ ++ x = escChar c₂ ++ y) : c₁ = c₂ ∧ x = y := by
  have h₁ := decode_escChar c₁ x
  rw [h, decode_escChar c₂ y] at h₁
  obtain ⟨hc, hx⟩ := Prod.mk.injEq .. ▸ Option.some.inj h₁
  exact ⟨hc.symm, hx.symm⟩

theorem escStr_quote_inj : ∀ (s₁ s₂ t₁ t₂ : List Char),
    escStr s₁ ++ '"' :: t₁ = escStr s₂ ++ '"' :: t₂ → s₁ = s₂ ∧ t₁ = t₂ := by
  intro s₁
  induction s₁ with
  | nil =>
    intro s₂ t₁ t₂ h
    cases s₂ with
    | nil =>
      simp only [escStr, List.nil_append, List.cons.injEq] at h
      exact ⟨rfl, h.2⟩
    | cons c cs =>
      exfalso
      simp only [escStr, List.nil_append, List.append_assoc] at h
      obtain ⟨hd, tl, he, hq⟩ := escChar_head_not_quote c
      rw [he] at h
      simp only [List.cons_append, List.cons.injEq] at h
      exact hq h.1.symm
  | cons c₁ cs₁ ih =>
    intro s₂ t₁ t₂ h
    cases s₂ with
    | nil =>
      exfalso
      simp only [escStr, List.nil_append, List.append_assoc] at h
      obtain ⟨hd, tl, he, hq⟩ := escChar_head_not_quote c₁
      rw [he] at h
      simp only [List.cons_append, List.cons.injEq] at h
      exact hq h.1
    | cons c₂ cs₂ =>
      simp only [escStr, List.append_assoc] at h
      obtain ⟨hc, hrest⟩ := escChar_append_inj h
      obtain ⟨hs, ht⟩ := ih cs₂ t₁ t₂ hrest
      exact ⟨by rw [hc, hs], ht⟩

theorem digit_run_inj : ∀ (as bs : List Char) (c₁ c₂ : Char) (x₁ x₂ : List Char),
    (∀ a ∈ as, a.isDigit = true) → (∀ b ∈ bs, b.isDigit = true) →
    c₁.isDigit = false → c₂.isDigit = false →
    as ++ c₁ :: x₁ = bs ++ c₂ :: x₂ → as = bs ∧ c₁ :: x₁ = c₂ :: x₂ := by
  intro as
  induction as with
  | nil =>
    intro bs c₁ c₂ x₁ x₂ _ hbs hc₁ hc₂ h
    cases bs with
    | nil => exact ⟨rfl, h⟩
    | cons b bs' =>
      exfalso
      simp only [List.nil_append, List.cons_append, List.cons.injEq] at h
      have hb := hbs b (List.mem_cons_self b bs')
      rw [← h.1] at hb
      rw [hc₁] at hb
      exact Bool.false_ne_true hb
  | cons a as' ih =>
    intro bs c₁ c₂ x₁ x₂ has hbs hc₁ hc₂ h
    cases bs with
    | nil =>
      exfalso
      simp only [List.nil_append, List.cons_append, List.cons.injEq] at h
      have ha := has a (List.mem_cons_self a as')
      rw [h.1] at ha
      rw [hc₂] at ha
      exact Bool.false_ne_true ha
    | cons b bs' =>
      simp only [List.cons_append, List.cons.injEq] at h
      obtain ⟨hab, hrest⟩ := h
      obtain ⟨htl, hx⟩ := ih bs' c₁ c₂ x₁ x₂
        (fun a' ha' => has a' (List.mem_cons_of_mem a ha'))
        (fun b' hb' => hbs b' (List.mem_cons_of_mem b hb')) hc₁ hc₂ hrest
      exact ⟨by rw [hab, htl], hx⟩

theorem natChars_run_inj {n₁ n₂ : Nat} {c₁ c₂ : Char} {x₁ x₂ : List Char}
    (hc₁ : c₁.isDigit = false) (hc₂ : c₂.isDigit = false)
    (h : natChars n₁ ++ c₁ :: x₁ = natChars n₂ ++ c₂ :: x₂) :
    n₁ = n₂ ∧ c₁ :: x₁ = c₂ :: x₂ := by
  obtain ⟨hn, hx⟩ := digit_run_inj (natChars n₁) (natChars n₂) c₁ c₂ x₁ x₂
    (natChars_all_digits n₁) (natChars_all_digits n₂) hc₁ hc₂ h
  exact ⟨natChars_inj n₁ n₂ hn, hx⟩

theorem natChars_head_digit (n : Nat) :
    ∃ hd tl, natChars n = hd :: tl ∧ hd.isDigit = true := by
  cases hne : natChars n with
  | nil => exact absurd hne (natChars_ne_nil n)
  | cons hd tl =>
    exact ⟨hd, tl, rfl, natChars_all_digits n hd (by rw [hne]; exact List.mem_cons_self hd tl)⟩

theorem segChars_head (sg : Seg) :
    ∃ hd tl, segChars sg = hd :: tl ∧ hd ≠ ']' ∧ hd ≠ ',' := by
  cases sg with
  | idx n =>
    obtain ⟨hd, tl, he, hdig⟩ := natChars_head_digit n
    refine ⟨hd, tl, he, ?_, ?_⟩
    · intro hq; rw [hq] at hdig; exact absurd hdig (by decide)
    · intro hq; rw [hq] at hdig; exact absurd hdig (by decide)
  | key s => exact ⟨'"', _, rfl, by decide, by decide⟩

theorem seg_append_inj : ∀ (s₁ s₂ : Seg) (c₁ c₂ : Char) (x₁ x₂ : List Char),
    c₁.isDigit = false → c₂.isDigit = false →
    segChars s₁ ++ c₁ :: x₁ = segChars s₂ ++ c₂ :: x₂ →
    s₁ = s₂ ∧ c₁ :: x₁ = c₂ :: x₂ := by
  intro s₁ s₂ c₁ c₂ x₁ x₂ hc₁ hc₂ h
  cases s₁ with
  | idx n₁ =>
    cases s₂ with
    | idx n₂ =>
      obtain ⟨hn, hx⟩ := natChars_run_inj hc₁ hc₂ h
      exact ⟨by rw [hn], hx⟩
    | key s =>
      exfalso
      simp only [segChars] at h
      obtain ⟨hd, tl, he, hdig⟩ := natChars_head_digit n₁
      rw [he] at h
      simp only [List.cons_append, List.cons.injEq] at h
      rw [h.1] at hdig
      exact absurd hdig (by decide)
  | key s₁' =>
    cases s₂ with
    | idx n₂ =>
      exfalso
      simp only [segChars] at h
      obtain ⟨hd, tl, he, hdig⟩ := natChars_head_digit n₂
      rw [he] at h
      simp only [List.cons_append, List.cons.injEq] at h
      rw [← h.1] at hdig
      exact absurd hdig (by decide)
    | key s₂' =>
      simp only [segChars, List.cons_append, List.cons.injEq, List.append_assoc] at h
      obtain ⟨hs, hx⟩ := escStr_quote_inj s₁'.data s₂'.data (c₁ :: x₁) (c₂ :: x₂)
        (by simpa using h)
      exact ⟨by rw [String.ext hs], hx⟩

theorem pathCore_append_inj : ∀ (p₁ p₂ : List Seg) (t₁ t₂ : List Char),
    pathCore p₁ ++ ']' :: t₁ = pathCore p₂ ++ ']' :: t₂ → p₁ = p₂ ∧ t₁ = t₂ := by
  intro p₁
  induction p₁ with
  | nil =>
    intro p₂ t₁ t₂ h
    cases p₂ with
    | nil =>
      simp only [pathCore, List.nil_append, List.cons.injEq] at h
      exact ⟨rfl, h.2⟩
    | cons sg₂ r₂ =>
      exfalso
      obtain ⟨hd, tl, he, hq, _⟩ := segChars_head sg₂
      cases r₂ with
      | nil =>
        simp only [pathCore, List.nil_append, he, List.cons_append, List.cons.injEq] at h
        exact hq h.1.symm
      | cons sg₃ r₃ =>
        simp only [pathCore, List.nil_append, he, List.cons_append, List.append_assoc,
          List.cons.injEq] at h
        exact hq h.1.symm
  | cons sg₁ r₁ ih =>
    intro p₂ t₁ t₂ h
    cases p₂ with
    | nil =>
      exfalso
      obtain ⟨hd, tl, he, hq, _⟩ := segChars_head sg₁
      cases r₁ with
      | nil =>
        simp only [pathCore, List.nil_append, he, List.cons_append, List.cons.injEq] at h
        exact hq h.1
      | cons sg₃ r₃ =>
        simp only [pathCore, List.nil_append, he, List.cons_append, List.append_assoc,
          List.cons.injEq] at h
        exact hq h.1
    | cons sg₂ r₂ =>
      cases r₁ with
      | nil =>
        cases r₂ with
        | nil =>
          simp only [pathCore] at h
          obtain ⟨hs, hx⟩ := seg_append_inj sg₁ sg₂ ']' ']' t₁ t₂
            (by decide) (by decide) h
          simp only [List.cons.injEq] at hx
          exact ⟨by rw [hs], hx.2⟩
        | cons sg₃ r₃ =>
          exfalso
          simp only [pathCore, List.cons_append, List.append_assoc] at h
          obtain ⟨_, hx⟩ := seg_append_inj sg₁ sg₂ ']' ','  t₁ _
            (by decide) (by decide) (by simpa using h)
          simp only [List.cons.injEq] at hx
          exact absurd hx.1 (by decide)
      | cons sg₁' r₁' =>
        cases r₂ with
        | nil =>
          exfalso
          simp only [pathCore, List.cons_append, List.append_assoc] at h
          obtain ⟨_, hx⟩ := seg_append_inj sg₁ sg₂ ',' ']' _ t₂
            (by decide) (by decide) (by simpa using h)
          simp only [List.cons.injEq] at hx
          exact absurd hx.1 (by decide)
        | cons sg₂' r₂' =>
          simp only [pathCore, List.cons_append, List.append_assoc] at h
          obtain ⟨hs, hx⟩ := seg_append_inj sg₁ sg₂ ',' ','  _ _
            (by decide) (by decide) (by simpa using h)
          simp only [List.cons.injEq] at hx
          obtain ⟨hr, ht⟩ := ih (sg₂' :: r₂') t₁ t₂ hx.2
          exact ⟨by rw [hs, hr], ht⟩

theorem asString_inj {l₁ l₂ : List Char} (h : l₁.asString = l₂.asString) : l₁ = l₂ := by
  have := congrArg String.data h
  simpa [List.asString] using this

theorem stringifyPath_inj {p₁ p₂ : List Seg} (h : stringifyPath p₁ = stringifyPath p₂) :
    p₁ = p₂ := by
  unfold stringifyPath at h
  have h' := asString_inj h
  simp only [List.cons.injEq] at h'
  have h'' : pathCore p₁ ++ ']' :: [] = pathCore p₂ ++ ']' :: [] := by
    simpa using h'.2
  exact (pathCore_append_inj p₁ p₂ [] [] h'').1

theorem stringifyPath_eq_iff {a b : List Seg} :
    stringifyPath a = stringifyPath b ↔ a = b :=
  ⟨stringifyPath_inj, fun h => by rw [h]⟩

/-! ### Remaining support lemmas -/

theorem applyEditToJson_ne_nil (d v : JValue) {p : List Seg} (hp : p ≠ []) :
    applyEditToJson d p v = walkApply d p v := by
  match p with
  | sg :: rest => rfl

theorem writable_of_lookup_some : ∀ (p : List Seg) (d t : JValue),
    lookupAt d p = some t → Writable d p = true := by
  intro p
  induction p with
  | nil => intro d t _; rfl
  | cons sg rest ih =>
    intro d t hl
    cases hg : getOwn d sg with
    | none => rw [lookupAt_cons_none hg] at hl; exact absurd hl (by simp)
    | some c =>
      rw [lookupAt_cons_some hg] at hl
      have hcw := canWrite_of_getOwn_some hg
      have hch : childOrEmpty d sg = c := by simp [childOrEmpty, hg]
      show (canWriteSeg d sg && Writable (childOrEmpty d sg) rest) = true
      rw [hcw, hch, ih c t hl]
      rfl

theorem joinSep_brackets : ∀ (l : List Seg) (sg : Seg),
    "[" ++ joinSep "][" ((sg :: l).map segDisplay) ++ "]" =
      "[" ++ segDisplay sg ++ "]" ++ pathBrackets l := by
  intro l
  induction l with
  | nil =>
    intro sg
    show "[" ++ segDisplay sg ++ "]" = "[" ++ segDisplay sg ++ "]" ++ pathBrackets []
    show _ = "[" ++ segDisplay sg ++ "]" ++ ""
    rw [String.append_empty]
  | cons sg₂ l₂ ih =>
    intro sg
    have hstep : joinSep "][" ((sg :: sg₂ :: l₂).map segDisplay) =
        segDisplay sg ++ "][" ++ joinSep "][" ((sg₂ :: l₂).map segDisplay) := rfl
    rw [hstep]
    have hsplit : ("][" : String) = "]" ++ "[" := rfl
    have hpb : pathBrackets (sg₂ :: l₂) = "[" ++ segDisplay sg₂ ++ "]" ++ pathBrackets l₂ := rfl
    rw [hpb, ← ih sg₂]
    simp only [String.append_assoc]
    have key : ∀ Y : String, ("][" : String) ++ Y = "]" ++ ("[" ++ Y) := by
      intro Y
      rw [← String.append_assoc]
      rfl
    rw [key]

theorem getOwnEntry_merge_preserve (ts ns : List (String × JValue)) (k : String)
    (h : getOwnEntry ns k = none) :
    getOwnEntry (mergeEntries ts ns) k = getOwnEntry ts k := by
  rw [getOwnEntry_merge]
  cases h' : getOwnEntry ts k <;> simp [h]

theorem buildEntries_foldl_filter : ∀ (rows : List Row) (acc : List (String × JValue)),
    rows.foldl
      (fun acc r =>
        if r.type ≠ RowType.array ∧ r.type ≠ RowType.object then
          if truthyKey r.key then setEntry acc (r.key.getD "") r.value else acc
        else acc) acc =
    (rows.filter (fun r =>
        decide (r.type ≠ RowType.array) && decide (r.type ≠ RowType.object) &&
          truthyKey r.key)).foldl
      (fun acc r =>
        if r.type ≠ RowType.array ∧ r.type ≠ RowType.object then
          if truthyKey r.key then setEntry acc (r.key.getD "") r.value else acc
        else acc) acc := by
  intro rows
  induction rows with
  | nil => intro acc; rfl
  | cons r rest ih =>
    intro acc
    by_cases h1 : r.type ≠ RowType.array ∧ r.type ≠ RowType.object
    · cases h2 : truthyKey r.key with
      | true =>
        simp only [List.foldl_cons, List.filter_cons, h1, h2, decide_eq_true h1.1,
          decide_eq_true h1.2, Bool.and_self, Bool.true_and, Bool.and_true, if_true, if_pos,
          List.foldl_cons]
        exact ih _
      | false =>
        simp only [List.foldl_cons, List.filter_cons, h2, Bool.and_false, if_false,
          if_pos h1, Bool.false_eq_true]
        exact ih acc
    · have h2 : (decide (r.type ≠ RowType.array) && decide (r.type ≠ RowType.object) &&
          truthyKey r.key) = false := by
        rcases not_and_or.mp h1 with hc | hc <;> simp [not_not.mp (by simpa using hc)]
      simp only [List.foldl_cons, List.filter_cons, h2, if_neg h1, Bool.false_eq_true, if_false]
      exact ih acc

theorem findByPath_sound {nodes : List GNode} {p : List Seg} {n : GNode}
    (h : findByPath nodes p = some n) : n ∈ nodes ∧ n.path = p := by
  unfold findByPath at h
  have h1 := List.find?_some h
  have h2 := List.mem_of_find?_eq_some h
  exact ⟨h2, stringifyPath_inj (of_decide_eq_true h1)⟩

theorem findByPath_unique : ∀ (nodes : List GNode) (p : List Seg) (n₀ : GNode),
    n₀ ∈ nodes → n₀.path = p → (∀ m ∈ nodes, m.path = p → m = n₀) →
    findByPath nodes p = some n₀ := by
  intro nodes
  induction nodes with
  | nil => intro p n₀ hmem _ _; simp at hmem
  | cons m rest ih =>
    intro p n₀ hmem hpath huniq
    by_cases hm : stringifyPath m.path = stringifyPath p
    · have hmp : m.path = p := stringifyPath_inj hm
      have hm0 : m = n₀ := huniq m (List.mem_cons_self m rest) hmp
      unfold findByPath
      rw [List.find?_cons_of_pos rest (decide_eq_true hm), hm0]
    · have hmp : m.path ≠ p := fun he => hm (by rw [he])
      have hn0 : n₀ ∈ rest := by
        rcases List.mem_cons.mp hmem with h' | h'
        · exact absurd (by rw [← h']; exact hpath) hmp
        · exact h'
      unfold findByPath
      rw [List.find?_cons_of_neg rest (by simpa using hm)]
      exact ih p n₀ hn0 hpath (fun m' hm' hp' => huniq m' (List.mem_cons_of_mem m hm') hp')

theorem findByPath_none_iff (nodes : List GNode) (p : List Seg) :
    findByPath nodes p = none ↔ ∀ m ∈ nodes, m.path ≠ p := by
  unfold findByPath
  rw [List.find?_eq_none]
  constructor
  · intro h m hm hp
    exact h m hm (decide_eq_true (by rw [hp]))
  · intro h m hm hp
    exact h m hm (stringifyPath_inj (of_decide_eq_true hp))

theorem reselect_found {nodes : List GNode} {p : List Seg} {n : GNode}
    (st : AppState) (ms : ModalState) (h : findByPath nodes p = some n) :
    reselectNonRoot nodes p st ms =
      ({ st with selectedNode := some n },
        { ms with editedContent := normalizeNodeData n.text }) := by
  unfold reselectNonRoot
  rw [h]

theorem reselect_missing {nodes : List GNode} {p : List Seg}
    (st : AppState) (ms : ModalState) (h : findByPath nodes p = none) :
    reselectNonRoot nodes p st ms = (st, ms) := by
  unfold reselectNonRoot
  rw [h]

theorem rows_project : ∀ (entries : List (String × JValue)),
    (rowsOfObject entries).map getRowText = entries.map (fun e =>
      match e.2 with
      | JValue.obj es => "\x7b" ++ natStr es.length ++ " keys\x7d"
      | JValue.arr xs => "[" ++ natStr xs.length ++ " items]"
      | v => jsCoerce v) := by
  intro entries
  induction entries with
  | nil => rfl
  | cons e rest ih =>
    obtain ⟨k, v⟩ := e
    cases v <;> simp [rowsOfObject, getRowText] <;>
      simpa [rowsOfObject] using ih

/-! ### Claims -/

/-- C1, counterexample to the claim as stated: with `D = {a: null}`,
`p = ["a","b"]`, `V = 5` the "otherwise" clause asserts position `p` is set
to `V` verbatim, but the patch throws a `TypeError` (writing a property on
`null`) instead of completing, so no position is set at all. -/
theorem C1_counterexample :
    applyEditToJson (JValue.obj [("a", JValue.null)]) [Seg.key "a", Seg.key "b"]
      (JValue.num 5) = Except.error () := rfl

/-- C1, amended: when both the new value and the existing value at `p` are
non-null non-array objects, the patch succeeds and puts their shallow merge
(existing entries kept, overwritten/extended by the new entries) at `p` —
here the walk follows existing own properties, where the own-property model
is faithful outright; in the remaining cases the new value is put at `p`
verbatim, provided every segment is a plain key (`plainPath` — not a
built-in prototype or `length` name, indices in the array range) and the
walk writes only through objects and index-addressed arrays (`Writable`).
Outside that proviso the write need not land: JavaScript's prototype-chain
and array-length semantics take over, and the operation can throw or leave
the document unchanged. -/
theorem C1_terminal_merge_or_replace :
    (∀ (D V t : JValue) (p : List Seg), p ≠ [] → lookupAt D p = some t →
      isMergeTgt t = true → isMergeSrc V = true →
      ∃ R, applyEditToJson D p V = Except.ok R ∧ lookupAt R p = some (mergeVals t V))
    ∧ (∀ (D V : JValue) (p : List Seg), p ≠ [] → plainPath p = true → Writable D p = true →
      (isMergeSrc V = false ∨ ∀ t, lookupAt D p = some t → isMergeTgt t = false) →
      ∃ R, applyEditToJson D p V = Except.ok R ∧ lookupAt R p = some V) := by
  constructor
  · intro D V t p hp hl ht hs
    have hw := writable_of_lookup_some p D t hl
    obtain ⟨R, hok, hlook⟩ := walk_writable_lookup p D V hp hw
    refine ⟨R, by rw [applyEditToJson_ne_nil D V hp]; exact hok, ?_⟩
    rw [hlook]
    have he : expectedAt D p V = mergeVals t V := by
      simp [expectedAt, hs, hl, ht]
    rw [he]
  · intro D V p hp _ hw hcond
    obtain ⟨R, hok, hlook⟩ := walk_writable_lookup p D V hp hw
    refine ⟨R, by rw [applyEditToJson_ne_nil D V hp]; exact hok, ?_⟩
    rw [hlook]
    have he : expectedAt D p V = V := by
      rcases hcond with hs | hnt
      · simp [expectedAt, hs]
      · cases hs : isMergeSrc V
        · simp [expectedAt, hs]
        · cases hl : lookupAt D p with
          | none => simp [expectedAt, hs, hl]
          | some t => simp [expectedAt, hs, hl, hnt t hl]
    rw [he]

/-- C1, witness: the spec's merge example `apply({a:{x:1,y:2}}, ["a"],
{y:3,z:4})` puts the shallow merge at `"a"`. -/
theorem C1_witness :
    ∃ R, applyEditToJson
        (JValue.obj [("a", JValue.obj [("x", JValue.num 1), ("y", JValue.num 2)])])
        [Seg.key "a"] (JValue.obj [("y", JValue.num 3), ("z", JValue.num 4)]) =
        Except.ok R ∧
      lookupAt R [Seg.key "a"] =
        some (mergeVals (JValue.obj [("x", JValue.num 1), ("y", JValue.num 2)])
          (JValue.obj [("y", JValue.num 3), ("z", JValue.num 4)])) :=
  C1_terminal_merge_or_replace.1 _ _ _ _ (by simp) rfl rfl rfl

/-- C2, counterexample to the claim as stated: the patch throws for a path
whose intermediate segment addresses `null` in the existing document. -/
theorem C2_counterexample :
    applyEditToJson (JValue.obj [("a", JValue.null)]) [Seg.key "a", Seg.key "x"]
      (JValue.bool true) = Except.error () := rfl

/-- C2, amended: the patch completes without throwing provided every
segment of the path is a plain key (`plainPath` — not a JavaScript built-in
prototype or `length` name, numeric indices in the array range) and every
position its walk traverses (including the terminal parent) holds an object
or an array (`SafeWalk`); the counterexample path, which reaches `null`,
throws a `TypeError` that propagates to the caller. -/
theorem C2_no_throw_when_safe : ∀ (D V : JValue) (p : List Seg),
    plainPath p = true → SafeWalk D p = true →
    ∃ R, applyEditToJson D p V = Except.ok R := by
  intro D V p _ hs
  cases p with
  | nil => exact ⟨V, rfl⟩
  | cons sg rest => exact (walk_ok_iff_safe (sg :: rest) D V).mpr hs

/-- C2, witness: an edit at the plain existing path `["a","b"]` of
`{a: {b: 0}}` completes without throwing. -/
theorem C2_witness :
    ∃ R, applyEditToJson (JValue.obj [("a", JValue.obj [("b", JValue.num 0)])])
      [Seg.key "a", Seg.key "b"] (JValue.num 1) = Except.ok R :=
  C2_no_throw_when_safe _ (JValue.num 1) [Seg.key "a", Seg.key "b"]
    (by decide) (by decide)

/-- C3, counterexample to the claim as stated: when the current document
text is not valid JSON but the edited text is, the edit is not rejected —
the file store's dirty flag flips to `true` (a store mutation) and no error
is surfaced. -/
theorem C3_counterexample :
    (saveEdit (some (JValue.num 5)) none (fun _ => []) [Seg.key "a"]
      ⟨"oops", false, "oops", [], none⟩ ⟨true, "5", false⟩).1.fileHasChanges = true
    ∧ (⟨"oops", false, "oops", [], none⟩ : AppState).fileHasChanges = false
    ∧ (saveEdit (some (JValue.num 5)) none (fun _ => []) [Seg.key "a"]
      ⟨"oops", false, "oops", [], none⟩ ⟨true, "5", false⟩).2.errorShown = false :=
  ⟨rfl, rfl, rfl⟩

/-- C3, amended: when the *edited* text is not valid JSON the edit is
rejected — the error is surfaced and neither the app stores nor the rest of
the modal state change; when only the *current document* text is invalid,
the edit instead proceeds against an empty-object fallback document. -/
theorem C3_parse_failure_handling :
    (∀ (cur : Option JValue) (rb : String → List GNode) (p : List Seg)
      (st : AppState) (ms : ModalState),
      saveEdit none cur rb p st ms = (st, { ms with errorShown := true }))
    ∧ (∀ (v : JValue) (rb : String → List GNode) (p : List Seg)
      (st : AppState) (ms : ModalState),
      saveEdit (some v) none rb p st ms =
        saveEdit (some v) (some (JValue.obj [])) rb p st ms) := by
  constructor
  · intro cur rb p st ms
    rfl
  · intro v rb p st ms
    cases p with
    | nil => rfl
    | cons sg rest => rfl

/-- C4, counterexample to the claim as stated: the walk *does* auto-extend
arrays — writing through index 5 of the length-1 array `[1]` pads it with
`null` holes up to index 5. -/
theorem C4_counterexample :
    applyEditToJson (JValue.obj [("a", JValue.arr [JValue.num 1])])
      [Seg.key "a", Seg.idx 5, Seg.key "x"] (JValue.num 7) =
    Except.ok (JValue.obj [("a", JValue.arr [JValue.num 1, JValue.null, JValue.null,
      JValue.null, JValue.null, JValue.obj [("x", JValue.num 7)]])]) := rfl

/-- C4, amended: along a path of plain segments (`plainPath` — segments
that are not built-in prototype or `length` names, whose inherited bindings
would defeat the code's `=== undefined` synthesis check, and numeric
indices in the array range) the walk creates an empty object at every
position the current container lacks as an own property — synthesizing
missing object keys, and on arrays assigning at the index (extending the
array with `null` holes when the index is beyond its length) — so a write
to a previously-absent plain path starting from an empty document succeeds
and lands the new value at the path; in particular
`apply({}, ["a","b"], 5) = {a: {b: 5}}`. -/
theorem C4_path_synthesis :
    (∀ (p : List Seg) (V : JValue), p ≠ [] → plainPath p = true →
      ∃ R, applyEditToJson (JValue.obj []) p V = Except.ok R ∧ lookupAt R p = some V)
    ∧ applyEditToJson (JValue.obj []) [Seg.key "a", Seg.key "b"] (JValue.num 5) =
      Except.ok (JValue.obj [("a", JValue.obj [("b", JValue.num 5)])]) := by
  constructor
  · intro p V hp _
    obtain ⟨R, hok, hlook⟩ := walk_writable_lookup p (JValue.obj []) V hp (writable_fresh p)
    refine ⟨R, by rw [applyEditToJson_ne_nil _ V hp]; exact hok, ?_⟩
    rw [hlook, expectedAt_none (lookupAt_fresh p hp)]
  · rfl

/-- C4, witness: a write at the previously-absent plain index path `[2]` of
the empty document succeeds and lands the value there. -/
theorem C4_witness :
    ∃ R, applyEditToJson (JValue.obj []) [Seg.idx 2] (JValue.str "w") = Except.ok R ∧
      lookupAt R [Seg.idx 2] = some (JValue.str "w") :=
  C4_path_synthesis.1 [Seg.idx 2] (JValue.str "w") (by simp) (by decide)

/-- C5: an edit at the empty (root) path replaces the whole document with
the new value verbatim — no merge is performed at the root, whatever the
shapes of the old document and the new value. -/
theorem C5_root_replace : ∀ (D V : JValue), applyEditToJson D [] V = Except.ok V :=
  fun _ _ => rfl

/-- C6: applying the same edit a second time with the already-applied value
produces the same document as applying it once (stated in the Kleisli form
so a throwing first application propagates unchanged); the new value is a
parsed JSON value, hence has no duplicate object keys (`wf`). -/
theorem C6_idempotent : ∀ (D V : JValue) (p : List Seg), wf V = true →
    (applyEditToJson D p V).bind (fun R => applyEditToJson R p V) =
      applyEditToJson D p V := by
  intro D V p hv
  cases p with
  | nil => rfl
  | cons sg rest =>
    cases h : walkApply D (sg :: rest) V with
    | error e =>
      cases e
      rw [applyEditToJson_ne_nil D V (by simp), h]
      rfl
    | ok r =>
      rw [applyEditToJson_ne_nil D V (by simp), h]
      show applyEditToJson r (sg :: rest) V = Except.ok r
      rw [applyEditToJson_ne_nil r V (by simp)]
      exact walk_idem (sg :: rest) V hv D r h

/-- C6, witness: re-applying the object edit `{b: 2}` at `["a"]` to its own
result changes nothing. -/
theorem C6_witness :
    (applyEditToJson (JValue.obj [("a", JValue.num 1)]) [Seg.key "a"]
      (JValue.obj [("b", JValue.num 2)])).bind
      (fun R => applyEditToJson R [Seg.key "a"] (JValue.obj [("b", JValue.num 2)])) =
    applyEditToJson (JValue.obj [("a", JValue.num 1)]) [Seg.key "a"]
      (JValue.obj [("b", JValue.num 2)]) :=
  C6_idempotent _ _ _ (by simp [wf, getOwnEntry, List.find?])

/-- C7: the post-edit lookup returns only a node of the rebuilt set whose
recorded path is structurally equal to the edited path (the stringified
comparison the code uses is injective); when such a node uniquely exists it
is found and selected, the modal content refreshed from it, and nothing
else changes; when no node has that path the lookup returns none and the
whole state is left unchanged. -/
theorem C7_reselect :
    (∀ (nodes : List GNode) (p : List Seg) (n : GNode),
      findByPath nodes p = some n → n ∈ nodes ∧ n.path = p)
    ∧ (∀ (nodes : List GNode) (p : List Seg) (n₀ : GNode),
      n₀ ∈ nodes → n₀.path = p → (∀ m ∈ nodes, m.path = p → m = n₀) →
      findByPath nodes p = some n₀)
    ∧ (∀ (nodes : List GNode) (p : List Seg) (st : AppState) (ms : ModalState) (n : GNode),
      findByPath nodes p = some n →
      reselectNonRoot nodes p st ms =
        ({ st with selectedNode := some n },
          { ms with editedContent := normalizeNodeData n.text }))
    ∧ (∀ (nodes : List GNode) (p : List Seg),
      findByPath nodes p = none ↔ ∀ m ∈ nodes, m.path ≠ p)
    ∧ (∀ (nodes : List GNode) (p : List Seg) (st : AppState) (ms : ModalState),
      findByPath nodes p = none → reselectNonRoot nodes p st ms = (st, ms)) :=
  ⟨fun _ _ _ h => findByPath_sound h,
   findByPath_unique,
   fun _ _ st ms _ h => reselect_found st ms h,
   findByPath_none_iff,
   fun _ _ st ms h => reselect_missing st ms h⟩

/-- C7, witness: in a one-node graph whose node records path `["a"]`, the
lookup at `["a"]` finds that node and the reselection selects it and
refreshes the modal content from its rows. -/
theorem C7_witness :
    findByPath [⟨[Seg.key "a"], []⟩] [Seg.key "a"] = some ⟨[Seg.key "a"], []⟩ ∧
    reselectNonRoot [⟨[Seg.key "a"], []⟩] [Seg.key "a"]
      ⟨"c", false, "c", [⟨[Seg.key "a"], []⟩], none⟩ ⟨false, "", false⟩ =
      (⟨"c", false, "c", [⟨[Seg.key "a"], []⟩], some ⟨[Seg.key "a"], []⟩⟩,
        ⟨false, normalizeNodeData [], false⟩) := by
  have h1 : findByPath [(⟨[Seg.key "a"], []⟩ : GNode)] [Seg.key "a"] =
      some ⟨[Seg.key "a"], []⟩ :=
    C7_reselect.2.1 [⟨[Seg.key "a"], []⟩] [Seg.key "a"] ⟨[Seg.key "a"], []⟩
      (by simp) rfl (fun m hm _ => by simpa using hm)
  have h2 := C7_reselect.2.2.1 [⟨[Seg.key "a"], []⟩] [Seg.key "a"]
    ⟨"c", false, "c", [⟨[Seg.key "a"], []⟩], none⟩ ⟨false, "", false⟩
    ⟨[Seg.key "a"], []⟩ h1
  exact ⟨h1, by rw [h2]⟩

/-- C8: the display string renders a path as a bracketed accessor
expression rooted at `$` — the empty path as exactly `$`, string segments
quoted and numeric segments bare, each in its own brackets in order — as in
the spec's examples. -/
theorem C8_path_display :
    (∀ p : List Seg, jsonPathToString p = specPathDisplay p)
    ∧ jsonPathToString [Seg.key "customer", Seg.idx 2, Seg.key "name"] =
      "$[\"customer\"][2][\"name\"]"
    ∧ jsonPathToString [] = "$" := by
  refine ⟨?_, rfl, rfl⟩
  intro p
  cases p with
  | nil =>
    show "$" = "$" ++ ""
    rw [String.append_empty]
  | cons sg rest =>
    show "$[" ++ joinSep "][" ((sg :: rest).map segDisplay) ++ "]" =
      "$" ++ pathBrackets (sg :: rest)
    have h1 : ("$[" : String) = "$" ++ "[" := rfl
    have h2 := joinSep_brackets rest sg
    rw [h1, String.append_assoc, String.append_assoc,
      ← String.append_assoc ("[" : String), h2]
    rfl

/-- C9: each projected row shows `{N keys}` for an object child, `[N items]`
for an array child (`N` the immediate child count), and the scalar itself
rendered as text otherwise; in particular the node wrapping
`{k1: {}, k2: [1,2,3], k3: "x"}` shows `{0 keys}`, `[3 items]`, `x` in that
key order. -/
theorem C9_row_projection :
    (∀ (entries : List (String × JValue)),
      (rowsOfObject entries).map getRowText = entries.map (fun e =>
        match e.2 with
        | JValue.obj es => "\x7b" ++ natStr es.length ++ " keys\x7d"
        | JValue.arr xs => "[" ++ natStr xs.length ++ " items]"
        | v => jsCoerce v))
    ∧ (rowsOfObject [("k1", JValue.obj []),
        ("k2", JValue.arr [JValue.num 1, JValue.num 2, JValue.num 3]),
        ("k3", JValue.str "x")]).map getRowText =
      ["\x7b0 keys\x7d", "[3 items]", "x"] := by
  refine ⟨rows_project, ?_⟩
  rw [rows_project]
  simp only [List.map_cons, List.map_nil, jsCoerce]
  decide

/-- C10: the editable content is `{}` for an empty row list, the coerced
value for a single falsy-keyed row, and otherwise the two-space JSON of the
object collecting exactly the truthy-keyed rows of non-container kind
(later rows overwriting earlier); container-kind and falsy-keyed rows are
omitted, and a shallow merge with the resulting object cannot touch keys
the object omits. -/
theorem C10_normalize :
    normalizeNodeData [] = "\x7b\x7d"
    ∧ (∀ r : Row, truthyKey r.key = false → normalizeNodeData [r] = jsCoerce r.value)
    ∧ (∀ (r : Row) (rs : List Row), rs ≠ [] ∨ truthyKey r.key = true →
      normalizeNodeData (r :: rs) = stringifyVal 0 (JValue.obj (buildEntries (r :: rs))))
    ∧ (∀ rows : List Row, buildEntries rows = buildEntries (rows.filter (fun r =>
        decide (r.type ≠ RowType.array) && decide (r.type ≠ RowType.object) &&
          truthyKey r.key)))
    ∧ (∀ (ts ns : List (String × JValue)) (k : String), getOwnEntry ns k = none →
      getOwnEntry (mergeEntries ts ns) k = getOwnEntry ts k) := by
  refine ⟨rfl, ?_, ?_, ?_, getOwnEntry_merge_preserve⟩
  · intro r h
    simp [normalizeNodeData, h]
  · intro r rs h
    rcases h with h | h
    · have he : rs.isEmpty = false := by
        cases rs with
        | nil => exact absurd rfl h
        | cons a l => rfl
      simp [normalizeNodeData, he]
    · simp [normalizeNodeData, h]
  · intro rows
    exact buildEntries_foldl_filter rows []

/-- C10, witness: a single keyless row shows its coerced value, and a merge
with an object lacking key `"a"` leaves the existing `"a"` entry intact. -/
theorem C10_witness :
    normalizeNodeData [⟨RowType.scalar, none, JValue.str "hi", none⟩] =
      jsCoerce (JValue.str "hi") ∧
    getOwnEntry (mergeEntries [("a", JValue.num 1)] [("b", JValue.num 2)]) "a" =
      getOwnEntry [("a", JValue.num 1)] "a" :=
  ⟨C10_normalize.2.1 _ rfl, C10_normalize.2.2.2.2 _ _ _ rfl⟩

end JsonCrack
